import Mathlib

/-!
Shallow embedding of the block / sorted-string-table core of the
mini-lsm-starter repository (src/block.rs, src/block/builder.rs,
src/block/iterator.rs, src/table.rs, src/table/builder.rs,
src/table/iterator.rs), together with proofs about the embedded code.

Byte strings are modelled as `List Nat`; in any real execution every
element is a u8 value (< 256).  Machine-integer casts that can truncate
(`as u16`, `as u32`) are modelled with explicit `% 2^w`.  Rust panics
(out-of-bounds indexing, failed `assert!`, arithmetic underflow in
`vec![0; n - m]`) are modelled by `Option`, with `none` for the panic.
-/

namespace MiniLsm

abbrev Bytes := List Nat

/-- Big-endian bytes of a u16 value: `push((x >> 8) as u8); push(x as u8)`. -/
def be16 (x : Nat) : Bytes := [x / 256 % 256, x % 256]

/-- Big-endian bytes of a u32 value (`u32::to_be_bytes`). -/
def be32 (x : Nat) : Bytes :=
  [x / 2 ^ 24 % 256, x / 2 ^ 16 % 256, x / 2 ^ 8 % 256, x % 256]

/-- Read a big-endian u16 at byte index `i`: `(b[i] as u16) << 8 | b[i+1] as u16`. -/
def read16 (b : Bytes) (i : Nat) : Nat := 256 * b.getD i 0 + b.getD (i + 1) 0

/-- Read a big-endian u32 at byte index `i` (`u32::from_be_bytes`). -/
def read32 (b : Bytes) (i : Nat) : Nat :=
  2 ^ 24 * b.getD i 0 + 2 ^ 16 * b.getD (i + 1) 0 + 2 ^ 8 * b.getD (i + 2) 0 + b.getD (i + 3) 0

/-- Unsigned lexicographic strict order on byte slices, as `&[u8] < &[u8]` in Rust:
element-wise comparison, with a strict prefix smaller than its extensions. -/
def ltBytes : Bytes → Bytes → Bool
  | _, [] => false
  | [], _ :: _ => true
  | a :: as_, b :: bs => if a < b then true else if b < a then false else ltBytes as_ bs

/-! ## Block (src/block.rs) -/

/-- `Block { data: Vec<u8>, offsets: Vec<u16> }`. -/
structure Block where
  data : Bytes
  offsets : List Nat
deriving DecidableEq

/-- `Block::encode`: data bytes, then each u16 offset in reverse order
(big-endian), then the u16 entry count. -/
def Block.encode (b : Block) : Bytes :=
  b.data ++ b.offsets.reverse.flatMap be16 ++ be16 (b.offsets.length % 65536)

/-- `Block::decode`: read the entry count from the final two bytes, the i-th
offset from the two bytes at `size - 4 - 2*i`, and the data region as the
remaining prefix.  Out-of-bounds reads (Rust panics) yield `none`. -/
def Block.decode (bytes : Bytes) : Option Block :=
  let size := bytes.length
  if size < 2 then none
  else
    let n := 256 * bytes.getD (size - 2) 0 + bytes.getD (size - 1) 0
    if size < 2 + 2 * n then none
    else
      some ⟨bytes.take (size - 2 - 2 * n),
        (List.range n).map fun i =>
          256 * bytes.getD (size - 4 - 2 * i) 0 + bytes.getD (size - 3 - 2 * i) 0⟩

/-! ## BlockBuilder (src/block/builder.rs) -/

/-- `Entry { key, val, total_size: u16 }` buffered by the block builder. -/
structure Entry where
  key : Bytes
  val : Bytes
  total_size : Nat
deriving DecidableEq

/-- `BlockBuilder { kvs, current_size, target_size }`. -/
structure BlockBuilder where
  kvs : List Entry
  current_size : Nat
  target_size : Nat
deriving DecidableEq

def BlockBuilder.new (block_size : Nat) : BlockBuilder := ⟨[], 0, block_size⟩

/-- `BlockBuilder::add`: reject when
`current_size + (KEY_LEN_SIZE + VAL_LEN_SIZE + key.len() + value.len()) + OFFSET_SIZE`
exceeds `target_size`; otherwise push the entry (`total_size` is the pair size
cast to u16) and bump `current_size`.  Returns the Rust boolean together with
the updated builder state. -/
def BlockBuilder.add (b : BlockBuilder) (key value : Bytes) : Bool × BlockBuilder :=
  let pair_size := 2 + 2 + key.length + value.length
  if b.target_size < b.current_size + pair_size + 2 then (false, b)
  else
    (true, { b with kvs := b.kvs ++ [⟨key, value, pair_size % 65536⟩],
                    current_size := b.current_size + pair_size + 2 })

def BlockBuilder.isEmpty (b : BlockBuilder) : Bool := b.kvs.isEmpty

def BlockBuilder.size (b : BlockBuilder) : Nat := b.current_size + 2

/-- `BlockBuilder::build`: fold over the buffered entries, recording the running
u16 offset of each entry and concatenating the length-prefixed entry bytes. -/
def BlockBuilder.build (b : BlockBuilder) : Block :=
  let r := b.kvs.foldl
    (fun (acc : Bytes × List Nat × Nat) kv =>
      (acc.1 ++ be16 kv.key.length ++ kv.key ++ be16 kv.val.length ++ kv.val,
       acc.2.1 ++ [acc.2.2],
       (acc.2.2 + kv.total_size) % 65536))
    ([], [], 0)
  ⟨r.1, r.2.1⟩

/-! ## BlockIterator (src/block/iterator.rs) -/

/-- Decode the key of the entry starting at byte `off` of a block's `data`
(the two u16-length-prefixed slice reads of the source; all uses are
in-range on well-formed blocks). -/
def entryKey (data : Bytes) (off : Nat) : Bytes :=
  (data.drop (off + 2)).take (read16 data off)

/-- Decode the value of the entry starting at byte `off` of a block's `data`. -/
def entryVal (data : Bytes) (off : Nat) : Bytes :=
  let klen := read16 data off
  (data.drop (off + 2 + klen + 2)).take (read16 data (off + 2 + klen))

structure BlockIterator where
  block : Block
  key : Bytes
  value : Bytes
  idx : Nat
deriving DecidableEq

def BlockIterator.new (b : Block) : BlockIterator := ⟨b, [], [], 0⟩

/-- `BlockIterator::create_and_seek_to_first`; `block.offsets[0]` panics on an
empty block. -/
def BlockIterator.createAndSeekToFirst (b : Block) : Option BlockIterator :=
  match b.offsets.get? 0 with
  | none => none
  | some off => some ⟨b, entryKey b.data off, entryVal b.data off, 0⟩

/-- `BlockIterator::seek_to_first` on an existing iterator. -/
def BlockIterator.seekToFirst (it : BlockIterator) : Option BlockIterator :=
  match it.block.offsets.get? 0 with
  | none => none
  | some off =>
    some { it with key := entryKey it.block.data off, value := entryVal it.block.data off,
                   idx := 0 }

/-- `BlockIterator::next`: increment `idx`; when it equals `offsets.len()` clear
the cached key and value; otherwise load the entry at `offsets[idx]` — an
out-of-bounds index (possible when the iterator was already invalid) panics. -/
def BlockIterator.next (it : BlockIterator) : Option BlockIterator :=
  let idx := it.idx + 1
  if idx = it.block.offsets.length then some { it with key := [], value := [], idx := idx }
  else
    match it.block.offsets.get? idx with
    | none => none
    | some off =>
      some { it with key := entryKey it.block.data off, value := entryVal it.block.data off,
                     idx := idx }

def BlockIterator.isValid (it : BlockIterator) : Bool := it.key.length != 0

/-- The binary-search loop of `BlockIterator::seek_to_key` together with the
code following the loop.  The `mid_key == key` branch returns the entry at
`mid` directly (as the source does from inside the loop); after the loop,
index `low` is loaded, or the iterator is invalidated when `low` equals the
entry count.  `create_and_seek_to_key` runs the identical loop. -/
def BlockIterator.seekLoop (it : BlockIterator) (k : Bytes) (low high : Nat) : BlockIterator :=
  if h : low < high then
    let mid := (low + high) / 2
    let off := it.block.offsets.getD mid 0
    let mk := entryKey it.block.data off
    if ltBytes mk k then BlockIterator.seekLoop it k (mid + 1) high
    else if mk = k then { it with key := mk, value := entryVal it.block.data off, idx := mid }
    else BlockIterator.seekLoop it k low mid
  else if low = it.block.offsets.length then { it with key := [], value := [], idx := low }
  else
    let off := it.block.offsets.getD low 0
    { it with key := entryKey it.block.data off, value := entryVal it.block.data off, idx := low }
termination_by high - low
decreasing_by
  · omega
  · omega

/-- `BlockIterator::seek_to_key`. -/
def BlockIterator.seekToKey (it : BlockIterator) (k : Bytes) : BlockIterator :=
  BlockIterator.seekLoop it k 0 it.block.offsets.length

/-- `BlockIterator::create_and_seek_to_key` (verbatim copy of the same loop in
the source, started from a fresh iterator over `b`). -/
def BlockIterator.createAndSeekToKey (b : Block) (k : Bytes) : BlockIterator :=
  BlockIterator.seekLoop (BlockIterator.new b) k 0 b.offsets.length

/-! ## BlockMeta and SsTable (src/table.rs) -/

/-- `BlockMeta { offset: u32, key_len: u16, first_key }`. -/
structure BlockMeta where
  offset : Nat
  key_len : Nat
  first_key : Bytes
deriving DecidableEq

/-- `BlockMeta::encode_block_meta`: per meta, the u32 offset, the u16 key
length and the raw first key. -/
def BlockMeta.encodeBlockMeta (metas : List BlockMeta) : Bytes :=
  metas.flatMap fun m => be32 m.offset ++ be16 m.key_len ++ m.first_key

/-- The `while buf.has_remaining()` loop of `BlockMeta::decode_block_meta`:
`get_u32`, `get_u16` and `copy_to_bytes(key_len)` panic when fewer bytes
remain than requested. -/
def BlockMeta.decodeLoop (buf : Bytes) : Option (List BlockMeta) :=
  if hb : buf = [] then some []
  else
    if h6 : buf.length < 6 then none
    else
      let off := read32 buf 0
      let klen := read16 buf 4
      if hk : buf.length < 6 + klen then none
      else
        match BlockMeta.decodeLoop (buf.drop (6 + klen)) with
        | none => none
        | some rest => some (⟨off, klen, (buf.drop 6).take klen⟩ :: rest)
termination_by buf.length
decreasing_by
  simp only [List.length_drop]
  omega

def BlockMeta.decodeBlockMeta (buf : Bytes) : Option (List BlockMeta) :=
  BlockMeta.decodeLoop buf

/-- `FileObject::read(offset, len)`: the slice `self.0[offset..offset+len]`,
panicking (`none`) when it runs past the end of the file bytes. -/
def fileRead (f : Bytes) (off len : Nat) : Option Bytes :=
  if off + len ≤ f.length then some ((f.drop off).take len) else none

/-- `SsTable { file, block_metas, block_meta_offset: u32 }`. -/
structure SsTable where
  file : Bytes
  block_metas : List BlockMeta
  block_meta_offset : Nat
deriving DecidableEq

/-- `SsTable::open`: read the footer u32 from the last 4 bytes, decode the meta
region `[block_meta_offset, size - 4)`, keep the file.  The u64 length
computation `size - 4 - block_meta_offset` panics (wraps to an impossible
read) when `block_meta_offset + 4` exceeds the file size. -/
def SsTable.openTable (file : Bytes) : Option SsTable := do
  let footer ← fileRead file (file.length - 4) 4
  let bmo := read32 footer 0
  if file.length < 4 + bmo then none
  else do
    let buf ← fileRead file bmo (file.length - 4 - bmo)
    let metas ← BlockMeta.decodeBlockMeta buf
    some ⟨file, metas, bmo⟩

/-- The byte range `(start, len)` that `SsTable::read_block` requests from the
file for block `i`: `start = offset / 4196 * 4196`, `len = offset - start`. -/
def SsTable.readBlockRange (t : SsTable) (i : Nat) : Option (Nat × Nat) :=
  (t.block_metas.get? i).map fun m =>
    (m.offset / 4196 * 4196, m.offset - m.offset / 4196 * 4196)

/-- `SsTable::read_block`: look up `block_metas[block_idx]` (panicking when out
of range), read the slot-start-to-logical-end byte range, decode a Block. -/
def SsTable.readBlock (t : SsTable) (block_idx : Nat) : Option Block := do
  let m ← t.block_metas.get? block_idx
  let start := m.offset / 4196 * 4196
  let block_data ← fileRead t.file start (m.offset - start)
  Block.decode block_data

/-! ## SsTableBuilder (src/table/builder.rs) -/

structure SsTableBuilder where
  meta : List BlockMeta
  data_blocks : List Block
  cur_block : BlockBuilder
  cur_start : Nat
  block_size : Nat
  first_key : Bytes
deriving DecidableEq

/-- `SsTableBuilder::new`, with its `assert!(block_size <= 4196)`. -/
def SsTableBuilder.new (block_size : Nat) : Option SsTableBuilder :=
  if 4196 < block_size then none
  else some ⟨[], [], BlockBuilder.new block_size, 0, block_size, []⟩

/-- `SsTableBuilder::add`: try the current block builder; on success record the
first key of the block when it is still unset.  On rejection finalize the
current block (push the built block, push a BlockMeta whose u32 offset is
`cur_start + cur_block.size()`), open a fresh builder, `assert!` that the
pair now fits (panic — `none` — otherwise) and advance `cur_start` by the
4196-byte slot stride (u32 addition). -/
def SsTableBuilder.add (s : SsTableBuilder) (key value : Bytes) : Option SsTableBuilder :=
  match BlockBuilder.add s.cur_block key value with
  | (true, cb) =>
    some { s with cur_block := cb,
                  first_key := if s.first_key.isEmpty then key else s.first_key }
  | (false, _) =>
    let block_size := s.cur_block.size % 2 ^ 32
    let s1 : SsTableBuilder :=
      { s with data_blocks := s.data_blocks ++ [s.cur_block.build],
               meta := s.meta ++
                 [⟨(s.cur_start + block_size) % 2 ^ 32, s.first_key.length % 65536, s.first_key⟩],
               cur_block := BlockBuilder.new s.block_size,
               first_key := key }
    match BlockBuilder.add s1.cur_block key value with
    | (true, cb) =>
      some { s1 with cur_block := cb, cur_start := (s1.cur_start + 4196) % 2 ^ 32 }
    | (false, _) => none

/-- One encoded 4196-byte slot of the output file: `encode(block)` followed by
`vec![0; 4196 - len]` zero padding, whose length computation panics when the
encoded block overflows the slot. -/
def slotStep (acc : Bytes) (blk : Block) : Option Bytes :=
  let eb := blk.encode
  if 4196 < eb.length then none
  else some (acc ++ eb ++ List.replicate (4196 - eb.length) 0)

/-- `SsTableBuilder::build`: pad every finalized block to its slot; when the
current block builder is non-empty, finalize it the same way and push its
BlockMeta; append the encoded meta region and the big-endian u32
`block_meta_offset` footer. -/
def SsTableBuilder.build (s : SsTableBuilder) : Option SsTable := do
  let slots ← s.data_blocks.foldlM slotStep []
  if s.cur_block.isEmpty then
    some ⟨slots ++ BlockMeta.encodeBlockMeta s.meta ++ be32 s.cur_start, s.meta, s.cur_start⟩
  else
    let block_size := s.cur_block.size % 2 ^ 32
    let eb := s.cur_block.build.encode
    if 4196 < eb.length then none
    else
      let bmo := (s.cur_start + 4196) % 2 ^ 32
      let metas := s.meta ++
        [⟨(s.cur_start + block_size) % 2 ^ 32, s.first_key.length % 65536, s.first_key⟩]
      some ⟨slots ++ eb ++ List.replicate (4196 - eb.length) 0 ++
              BlockMeta.encodeBlockMeta metas ++ be32 bmo,
            metas, bmo⟩

/-! ## SsTableIterator (src/table/iterator.rs) -/

structure SsTableIterator where
  table : SsTable
  block_idx : Nat
  cur_block_iterator : BlockIterator
deriving DecidableEq

def SsTableIterator.key (it : SsTableIterator) : Bytes := it.cur_block_iterator.key

def SsTableIterator.value (it : SsTableIterator) : Bytes := it.cur_block_iterator.value

def SsTableIterator.isValid (it : SsTableIterator) : Bool := it.cur_block_iterator.isValid

/-- `SsTableIterator::create_and_seek_to_first`. -/
def SsTableIterator.createAndSeekToFirst (t : SsTable) : Option SsTableIterator := do
  let block ← t.readBlock 0
  let bit ← BlockIterator.createAndSeekToFirst block
  some ⟨t, 0, bit⟩

/-- `SsTableIterator::seek_to_first` on an existing iterator. -/
def SsTableIterator.seekToFirst (it : SsTableIterator) : Option SsTableIterator := do
  let block ← it.table.readBlock 0
  let bit ← BlockIterator.createAndSeekToFirst block
  some { it with block_idx := 0, cur_block_iterator := bit }

/-- The binary-search loop shared by `SsTableIterator::seek_to_key` and
`create_and_seek_to_key`: narrow to the first meta index whose `first_key`
compares strictly greater than the probe. -/
def SsTableIterator.metaSeekLoop (metas : List BlockMeta) (k : Bytes) (low high : Nat) : Nat :=
  if h : low < high then
    let mid := (low + high) / 2
    if ltBytes k ((metas.getD mid ⟨0, 0, []⟩).first_key) then
      SsTableIterator.metaSeekLoop metas k low mid
    else SsTableIterator.metaSeekLoop metas k (mid + 1) high
  else low
termination_by high - low
decreasing_by
  · omega
  · omega

/-- `SsTableIterator::seek_to_key`: run the meta binary search; when it yields
0, seek to first; otherwise seek block `low - 1` to the key and, when that
block iterator comes back invalid and a next block exists, seek block `low`
to its first entry. -/
def SsTableIterator.seekToKey (it : SsTableIterator) (k : Bytes) : Option SsTableIterator := do
  let low := SsTableIterator.metaSeekLoop it.table.block_metas k 0 it.table.block_metas.length
  if low = 0 then it.seekToFirst
  else do
    let block ← it.table.readBlock (low - 1)
    let it1 : SsTableIterator :=
      { it with block_idx := low - 1,
                cur_block_iterator := BlockIterator.createAndSeekToKey block k }
    if it1.cur_block_iterator.isValid then some it1
    else if it.table.block_metas.length ≤ low then some it1
    else do
      let block2 ← it.table.readBlock low
      let bit ← BlockIterator.createAndSeekToFirst block2
      some { it1 with block_idx := low - 1 + 1, cur_block_iterator := bit }

/-- `SsTableIterator::next`: advance the inner block iterator; if it becomes
invalid and a next block exists (`block_idx >= block_metas.len() - 1`
otherwise returns, with the usize subtraction panicking on a table with no
metas), load the next block and seek it to first. -/
def SsTableIterator.next (it : SsTableIterator) : Option SsTableIterator := do
  let cur ← it.cur_block_iterator.next
  if cur.isValid then some { it with cur_block_iterator := cur }
  else if it.table.block_metas.length = 0 then none
  else if it.table.block_metas.length - 1 ≤ it.block_idx then
    some { it with cur_block_iterator := cur }
  else do
    let block ← it.table.readBlock (it.block_idx + 1)
    let bit ← BlockIterator.createAndSeekToFirst block
    some { it with block_idx := it.block_idx + 1, cur_block_iterator := bit }

/-! ## Whole-table scenarios used by the specification claims -/

/-- Feed a sequence of key-value pairs to a fresh `SsTableBuilder` and build
the resulting table. -/
def buildFromPairs (bs : Nat) (pairs : List (Bytes × Bytes)) : Option SsTable := do
  let b0 ← SsTableBuilder.new bs
  let b ← pairs.foldlM (fun st p => st.add p.1 p.2) b0
  b.build

/-- Repeatedly emit the current entry and call `next` while the iterator is
valid; `fuel` bounds the number of emitted entries (out-of-fuel while still
valid reports `none`). -/
def scanLoop : Nat → SsTableIterator → Option (List (Bytes × Bytes))
  | 0, it => if it.isValid then none else some []
  | fuel + 1, it =>
    if it.isValid then do
      let it2 ← it.next
      let rest ← scanLoop fuel it2
      some ((it.key, it.value) :: rest)
    else some []

/-- A full forward scan: `create_and_seek_to_first`, then `next` until invalid. -/
def fullScan (t : SsTable) (fuel : Nat) : Option (List (Bytes × Bytes)) := do
  let it ← SsTableIterator.createAndSeekToFirst t
  scanLoop fuel it

/-- Boolean test that the keys of a pair sequence are strictly ascending in
unsigned lexicographic byte order. -/
def ascending : List (Bytes × Bytes) → Bool
  | [] => true
  | [_] => true
  | p :: q :: r => ltBytes p.1 q.1 && ascending (q :: r)

/-! ## Specification-side descriptions of the builder output

The following definitions do not model source functions; they describe, in
closed form, the state the builder reaches, and the proofs below show the
embedded source computes exactly these values. -/

abbrev KV := Bytes × Bytes

/-- The on-disk byte size of one entry: two u16 length fields plus key and
value bytes. -/
def entrySize (p : KV) : Nat := 2 + 2 + p.1.length + p.2.length

/-- The encoded form of one entry. -/
def encEntry (p : KV) : Bytes := be16 p.1.length ++ p.1 ++ be16 p.2.length ++ p.2

/-- The data region of a block holding the entries of `c`. -/
def chunkData (c : List KV) : Bytes := c.flatMap encEntry

/-- Total byte size of the data region of `c`. -/
def dataSize (c : List KV) : Nat := (c.map entrySize).sum

/-- The builder's `current_size` after accepting all of `c`: data plus one
u16 offset slot per entry. -/
def chunkSize (c : List KV) : Nat := (c.map fun p => entrySize p + 2).sum

/-- Start offset of each entry within the data region. -/
def chunkOffsets (c : List KV) : List Nat :=
  (List.range c.length).map fun i => dataSize (c.take i)

/-- The block a `BlockBuilder` produces from the entries of `c`. -/
def chunkBlock (c : List KV) : Block := ⟨chunkData c, chunkOffsets c⟩

/-- The buffered `Entry` corresponding to a pair. -/
def mkEntry (p : KV) : Entry := ⟨p.1, p.2, (2 + 2 + p.1.length + p.2.length) % 65536⟩

/-- First key of a chunk (empty for an empty chunk). -/
def headKeyD : List KV → Bytes
  | [] => []
  | p :: _ => p.1

/-- The `BlockMeta` records for consecutive chunks starting at slot index `i`. -/
def metasOf : Nat → List (List KV) → List BlockMeta
  | _, [] => []
  | i, c :: rest =>
    ⟨4196 * i + chunkSize c + 2, (headKeyD c).length % 65536, headKeyD c⟩ :: metasOf (i + 1) rest

/-- One 4196-byte slot of the output file. -/
def slotOf (c : List KV) : Bytes :=
  (chunkBlock c).encode ++ List.replicate (4196 - (chunkBlock c).encode.length) 0

def slotsOf (chunks : List (List KV)) : Bytes := chunks.flatMap slotOf

/-- The table `SsTableBuilder::build` produces when its entries were split into
the given chunks. -/
def builtTable (chunks : List (List KV)) : SsTable :=
  ⟨slotsOf chunks ++ BlockMeta.encodeBlockMeta (metasOf 0 chunks) ++ be32 (4196 * chunks.length),
   metasOf 0 chunks, 4196 * chunks.length⟩

/-- The builder state after the pairs of `done` have been finalized into full
blocks and the pairs of `cur` accepted into the current block builder. -/
def builderState (bs : Nat) (done : List (List KV)) (cur : List KV) : SsTableBuilder :=
  ⟨metasOf 0 done, done.map chunkBlock, ⟨cur.map mkEntry, chunkSize cur, bs⟩,
   4196 * done.length, bs, headKeyD cur⟩

/-- How `pairs` decomposes into the finalized chunks `done` and the pending
chunk `cur` of a builder state. -/
def goodChunks (bs : Nat) (pairs : List KV) (done : List (List KV)) (cur : List KV) : Prop :=
  pairs = done.flatten ++ cur ∧ (∀ c ∈ done, c ≠ [] ∧ chunkSize c ≤ bs) ∧
    chunkSize cur ≤ bs ∧ (cur = [] → done = [])

/-- The key sequence stored in a block, as the iterator reads it. -/
def blockKeys (b : Block) : List Bytes := b.offsets.map fun off => entryKey b.data off

/-- The value sequence stored in a block, as the iterator reads it. -/
def blockVals (b : Block) : List Bytes := b.offsets.map fun off => entryVal b.data off

/-- Index of the first element of `keys` that is `≥ k` in unsigned
lexicographic order (`keys.length` when every key is smaller). -/
def firstGe (keys : List Bytes) (k : Bytes) : Nat :=
  match keys with
  | [] => 0
  | a :: rest => if ltBytes a k then firstGe rest k + 1 else 0

/-- Index of the first element of `keys` that is strictly greater than `k` in
unsigned lexicographic order (`keys.length` when no key is greater); this is
the value the meta-level binary search of `SsTableIterator::seek_to_key`
computes on ascending first keys. -/
def firstGt (keys : List Bytes) (k : Bytes) : Nat :=
  match keys with
  | [] => 0
  | a :: rest => if ltBytes k a then 0 else firstGt rest k + 1

/-- Boolean test that a key sequence is strictly ascending. -/
def ascKeys : List Bytes → Bool
  | [] => true
  | [_] => true
  | a :: b :: r => ltBytes a b && ascKeys (b :: r)

/-- A concrete four-entry block (keys "aa" < "cc" < "ee" < "gg") used by
witnesses of the seek theorems. -/
def exampleBlock : Block :=
  ⟨[0, 2, 97, 97, 0, 1, 49, 0, 2, 99, 99, 0, 1, 50,
    0, 2, 101, 101, 0, 1, 51, 0, 2, 103, 103, 0, 1, 52], [0, 7, 14, 21]⟩

/-- A concrete one-block, one-entry table (key "a", value "1"; the file holds
exactly the block's encoded ten bytes, so `read_block(0)` reads `[0, 10)`). -/
def exampleTable : SsTable :=
  ⟨[0, 1, 97, 0, 1, 49, 0, 0, 0, 1], [⟨10, 1, [97]⟩], 10⟩

/-! ## Order facts about the byte comparison -/

theorem ltBytes_irrefl (a : Bytes) : ltBytes a a = false := by
  induction a with
  | nil => rfl
  | cons x xs ih => simp [ltBytes, ih]

theorem ltBytes_trans {a b c : Bytes} (h1 : ltBytes a b = true) (h2 : ltBytes b c = true) :
    ltBytes a c = true := by
  induction a generalizing b c with
  | nil =>
    cases b with
    | nil => simp [ltBytes] at h1
    | cons y ys =>
      cases c with
      | nil => simp [ltBytes] at h2
      | cons z zs => simp [ltBytes]
  | cons x xs ih =>
    cases b with
    | nil => simp [ltBytes] at h1
    | cons y ys =>
      cases c with
      | nil => simp [ltBytes] at h2
      | cons z zs =>
        simp only [ltBytes] at h1 h2 ⊢
        rcases Nat.lt_trichotomy x y with hxy | hxy | hxy
        · rcases Nat.lt_trichotomy y z with hyz | hyz | hyz
          · rw [if_pos (Nat.lt_trans hxy hyz)]
          · subst hyz
            rw [if_pos hxy]
          · rw [if_neg (Nat.lt_asymm hyz), if_pos hyz] at h2
            exact absurd h2 (by simp)
        · subst hxy
          rw [if_neg (Nat.lt_irrefl x), if_neg (Nat.lt_irrefl x)] at h1
          rcases Nat.lt_trichotomy x z with hxz | hxz | hxz
          · rw [if_pos hxz]
          · subst hxz
            rw [if_neg (Nat.lt_irrefl x), if_neg (Nat.lt_irrefl x)] at h2 ⊢
            exact ih h1 h2
          · rw [if_neg (Nat.lt_asymm hxz), if_pos hxz] at h2
            exact absurd h2 (by simp)
        · rw [if_neg (Nat.lt_asymm hxy), if_pos hxy] at h1
          exact absurd h1 (by simp)

theorem ltBytes_total {a b : Bytes} (h : ltBytes a b = false) : a = b ∨ ltBytes b a = true := by
  induction a generalizing b with
  | nil =>
    cases b with
    | nil => exact Or.inl rfl
    | cons y ys => simp [ltBytes] at h
  | cons x xs ih =>
    cases b with
    | nil => exact Or.inr rfl
    | cons y ys =>
      simp only [ltBytes] at h ⊢
      rcases Nat.lt_trichotomy x y with hxy | hxy | hxy
      · rw [if_pos hxy] at h
        exact absurd h (by simp)
      · subst hxy
        rw [if_neg (Nat.lt_irrefl x), if_neg (Nat.lt_irrefl x)] at h ⊢
        rcases ih h with h1 | h1
        · exact Or.inl (by rw [h1])
        · exact Or.inr h1
      · exact Or.inr (by rw [if_pos hxy])

theorem ltBytes_asymm {a b : Bytes} (h : ltBytes a b = true) : ltBytes b a = false := by
  cases hx : ltBytes b a
  · rfl
  · have h2 := ltBytes_trans h hx
    rw [ltBytes_irrefl] at h2
    exact absurd h2 (by simp)

/-! ## List access helpers -/

theorem getD_append_right (a l : Bytes) (n : Nat) (d : Nat) :
    (a ++ l).getD (a.length + n) d = l.getD n d := by
  induction a with
  | nil => simp
  | cons x xs ih => simpa [List.getD, Nat.succ_add] using ih

theorem getD_append_left (a l : Bytes) (n : Nat) (d : Nat) (h : n < a.length) :
    (a ++ l).getD n d = a.getD n d := by
  induction a generalizing n with
  | nil => simp at h
  | cons x xs ih =>
    cases n with
    | zero => rfl
    | succ m =>
      simp only [List.length_cons, Nat.succ_lt_succ_iff] at h
      simpa [List.getD] using ih m h

theorem drop_append_right (a l : Bytes) (n : Nat) :
    (a ++ l).drop (a.length + n) = l.drop n := by
  induction a with
  | nil => simp
  | cons x xs ih => simp [Nat.succ_add, ih]

theorem drop_append_le (a l : Bytes) (n : Nat) (h : n ≤ a.length) :
    (a ++ l).drop n = a.drop n ++ l := by
  induction a generalizing n with
  | nil =>
    have h0 : n = 0 := by simpa using h
    subst h0
    rfl
  | cons x xs ih =>
    cases n with
    | zero => rfl
    | succ m =>
      simp only [List.length_cons, Nat.succ_le_succ_iff] at h
      simp [ih m h]

theorem take_append_length (a l : Bytes) : (a ++ l).take a.length = a := by
  induction a with
  | nil => rfl
  | cons x xs ih => simpa using ih

theorem drop_append_length (a l : Bytes) : (a ++ l).drop a.length = l := by
  have h := drop_append_right a l 0
  simpa using h

theorem read16_shift (a l : Bytes) (n : Nat) : read16 (a ++ l) (a.length + n) = read16 l n := by
  unfold read16
  rw [getD_append_right]
  have h : a.length + n + 1 = a.length + (n + 1) := by omega
  rw [h, getD_append_right]

theorem read16_be16 (x : Nat) (l : Bytes) (hx : x < 65536) : read16 (be16 x ++ l) 0 = x := by
  unfold read16 be16
  simp only [List.cons_append, List.getD_cons_zero, List.getD_cons_succ]
  have h1 : x / 256 < 256 := by omega
  rw [Nat.mod_eq_of_lt h1]
  omega

theorem length_flatMap_be16 (L : List Nat) : (L.flatMap be16).length = 2 * L.length := by
  induction L with
  | nil => rfl
  | cons x xs ih =>
    simp only [List.flatMap_cons, List.length_append, ih, be16, List.length_cons,
      List.length_nil]
    omega

theorem flatMap_be16_getD_even (L : List Nat) (j : Nat) (h : j < L.length) :
    (L.flatMap be16).getD (2 * j) 0 = L.getD j 0 / 256 % 256 := by
  induction L generalizing j with
  | nil => simp at h
  | cons x xs ih =>
    cases j with
    | zero => rfl
    | succ m =>
      have h2 : 2 * (m + 1) = (be16 x).length + 2 * m := by simp [be16]; omega
      simp only [List.flatMap_cons, h2, getD_append_right]
      simp only [List.length_cons, Nat.succ_lt_succ_iff] at h
      simpa using ih m h

theorem flatMap_be16_getD_odd (L : List Nat) (j : Nat) (h : j < L.length) :
    (L.flatMap be16).getD (2 * j + 1) 0 = L.getD j 0 % 256 := by
  induction L generalizing j with
  | nil => simp at h
  | cons x xs ih =>
    cases j with
    | zero => rfl
    | succ m =>
      have h2 : 2 * (m + 1) + 1 = (be16 x).length + (2 * m + 1) := by simp [be16]; omega
      simp only [List.flatMap_cons, h2, getD_append_right]
      simp only [List.length_cons, Nat.succ_lt_succ_iff] at h
      simpa using ih m h

theorem reverse_getD (l : List Nat) (j d : Nat) (h : j < l.length) :
    l.reverse.getD j d = l.getD (l.length - 1 - j) d := by
  induction l generalizing j with
  | nil => simp at h
  | cons x xs ih =>
    rw [List.reverse_cons]
    by_cases hj : j < xs.length
    · rw [getD_append_left _ _ _ _ (by simpa using hj), ih j hj]
      have h2 : (x :: xs).length - 1 - j = (xs.length - 1 - j) + 1 := by
        simp only [List.length_cons]
        omega
      rw [h2]
      rfl
    · have hj2 : j = xs.length := by
        simp only [List.length_cons] at h
        omega
      subst hj2
      have h3 : xs.length = xs.reverse.length + 0 := by simp
      rw [h3, getD_append_right]
      have h4 : (x :: xs).length - 1 - (xs.reverse.length + 0) = 0 := by simp
      rw [h4]
      rfl

/-- Round trip of the block codec: decoding an encoded block recovers the data
bytes and the offsets (in their original order, despite the reversed
encoding), provided the entry count and every offset fit in a u16 — which
the Rust `Vec<u16>` offsets and u16 count cast guarantee for every block a
`BlockBuilder` produces. -/
theorem Block.decode_encode (b : Block) (hn : b.offsets.length < 65536)
    (ho : ∀ o ∈ b.offsets, o < 65536) :
    Block.decode b.encode = some b := by
  obtain ⟨data, offsets⟩ := b
  simp only at hn ho
  have henc : Block.encode ⟨data, offsets⟩
      = data ++ (offsets.reverse.flatMap be16 ++ be16 (offsets.length % 65536)) := by
    simp [Block.encode]
  have hF : (offsets.reverse.flatMap be16).length = 2 * offsets.length := by
    rw [length_flatMap_be16, List.length_reverse]
  set E : Bytes := data ++ (offsets.reverse.flatMap be16 ++ be16 (offsets.length % 65536))
    with hE
  have hsize : E.length = data.length + 2 * offsets.length + 2 := by
    simp only [hE, List.length_append, hF, be16, List.length_cons, List.length_nil]
    omega
  have hcnt : 256 * E.getD (data.length + 2 * offsets.length) 0 +
      E.getD (data.length + 2 * offsets.length + 1) 0 = offsets.length := by
    have h1 : E.getD (data.length + 2 * offsets.length) 0
        = (be16 (offsets.length % 65536)).getD 0 0 := by
      have ha : data.length + 2 * offsets.length
          = data.length + ((offsets.reverse.flatMap be16).length + 0) := by
        rw [hF]
        omega
      rw [hE, ha, getD_append_right, getD_append_right]
    have h2 : E.getD (data.length + 2 * offsets.length + 1) 0
        = (be16 (offsets.length % 65536)).getD 1 0 := by
      have ha : data.length + 2 * offsets.length + 1
          = data.length + ((offsets.reverse.flatMap be16).length + 1) := by
        rw [hF]
        omega
      rw [hE, ha, getD_append_right, getD_append_right]
    rw [h1, h2]
    simp only [be16, List.getD_cons_zero, List.getD_cons_succ]
    rw [Nat.mod_eq_of_lt hn]
    have h3 : offsets.length / 256 < 256 := by omega
    rw [Nat.mod_eq_of_lt h3]
    omega
  rw [henc]
  unfold Block.decode
  simp only [hsize]
  rw [if_neg (by omega)]
  have harith1 : data.length + 2 * offsets.length + 2 - 2 = data.length + 2 * offsets.length := by
    omega
  have harith2 : data.length + 2 * offsets.length + 2 - 1
      = data.length + 2 * offsets.length + 1 := by omega
  rw [harith1, harith2, hcnt]
  rw [if_neg (by omega)]
  have hdata : E.take (data.length + 2 * offsets.length - 2 * offsets.length) = data := by
    have harith3 : data.length + 2 * offsets.length - 2 * offsets.length
        = data.length := by omega
    rw [harith3, hE]
    exact take_append_length _ _
  have hoffs : (List.range offsets.length).map (fun i =>
      256 * E.getD (data.length + 2 * offsets.length + 2 - 4 - 2 * i) 0 +
        E.getD (data.length + 2 * offsets.length + 2 - 3 - 2 * i) 0) = offsets := by
    apply List.ext_getElem
    · simp
    · intro i h1 h2
      simp only [List.getElem_map, List.getElem_range]
      have hi : i < offsets.length := h2
      have he1 : data.length + 2 * offsets.length + 2 - 4 - 2 * i
          = data.length + 2 * (offsets.length - 1 - i) := by omega
      have he2 : data.length + 2 * offsets.length + 2 - 3 - 2 * i
          = data.length + (2 * (offsets.length - 1 - i) + 1) := by omega
      have hgetE : E.getD (data.length + 2 * (offsets.length - 1 - i)) 0
          = (offsets.reverse.flatMap be16).getD (2 * (offsets.length - 1 - i)) 0 := by
        rw [hE, getD_append_right]
        apply getD_append_left
        rw [hF]
        omega
      have hgetO : E.getD (data.length + (2 * (offsets.length - 1 - i) + 1)) 0
          = (offsets.reverse.flatMap be16).getD (2 * (offsets.length - 1 - i) + 1) 0 := by
        rw [hE, getD_append_right]
        apply getD_append_left
        rw [hF]
        omega
      have hrev : offsets.reverse.getD (offsets.length - 1 - i) 0 = offsets.getD i 0 := by
        rw [reverse_getD offsets (offsets.length - 1 - i) 0 (by omega)]
        have h3 : offsets.length - 1 - (offsets.length - 1 - i) = i := by omega
        rw [h3]
      have hov : offsets.getD i 0 < 65536 := by
        have hmem : offsets.getD i 0 ∈ offsets := by
          rw [List.getD_eq_getElem _ _ hi]
          exact List.getElem_mem _
        exact ho _ hmem
      rw [he1, he2, hgetE, hgetO,
        flatMap_be16_getD_even offsets.reverse (offsets.length - 1 - i)
          (by rw [List.length_reverse]; omega),
        flatMap_be16_getD_odd offsets.reverse (offsets.length - 1 - i)
          (by rw [List.length_reverse]; omega),
        hrev]
      rw [List.getD_eq_getElem _ _ hi] at hov ⊢
      have hd : offsets[i] / 256 < 256 := by omega
      rw [Nat.mod_eq_of_lt hd]
      omega
  rw [hdata, hoffs]

/-- C2: for every Block (as produced by `BlockBuilder::build`, whose `offsets`
are u16 values and whose entry count fits a u16), `decode (encode b)` yields a
block with byte-equal `data` and element-equal `offsets`, even though `encode`
writes the offsets in reverse order. -/
theorem c2_block_codec_roundtrip (b : Block) (hn : b.offsets.length < 65536)
    (ho : ∀ o ∈ b.offsets, o < 65536) :
    Block.decode b.encode = some b :=
  Block.decode_encode b hn ho

theorem c2_block_codec_roundtrip_witness :
    Block.decode (Block.encode ⟨[7, 8, 9], [0, 5]⟩) = some ⟨[7, 8, 9], [0, 5]⟩ :=
  c2_block_codec_roundtrip ⟨[7, 8, 9], [0, 5]⟩ (by decide) (by decide)

/-! ## Entry extraction from a chunk's data region -/

theorem length_encEntry (p : KV) : (encEntry p).length = entrySize p := by
  simp [encEntry, entrySize, be16]
  omega

theorem length_chunkData (c : List KV) : (chunkData c).length = dataSize c := by
  induction c with
  | nil => rfl
  | cons p rest ih => simp [chunkData, dataSize, length_encEntry, ih] at *; omega

theorem read16_shift0 (a l : Bytes) : read16 (a ++ l) a.length = read16 l 0 := by
  have h : a.length = a.length + 0 := by omega
  rw [h, read16_shift]

theorem drop_append_shift (a l : Bytes) (n : Nat) : (a ++ l).drop (a.length + n) = l.drop n :=
  drop_append_right a l n

theorem entryKey_append (pre suf : Bytes) (p : KV) (hk : p.1.length < 65536) :
    entryKey (pre ++ (encEntry p ++ suf)) pre.length = p.1 := by
  unfold entryKey
  have h1 : read16 (pre ++ (encEntry p ++ suf)) pre.length = p.1.length := by
    rw [read16_shift0]
    have h2 : encEntry p ++ suf
        = be16 p.1.length ++ (p.1 ++ be16 p.2.length ++ p.2 ++ suf) := by
      simp [encEntry]
    rw [h2, read16_be16 _ _ hk]
  rw [h1]
  have h3 : pre.length + 2 = pre.length + ((be16 p.1.length).length + 0) := by
    simp [be16]
  rw [h3, ← Nat.add_assoc]
  have h4 : pre ++ (encEntry p ++ suf)
      = (pre ++ be16 p.1.length) ++ (p.1 ++ (be16 p.2.length ++ p.2 ++ suf)) := by
    simp [encEntry]
  rw [h4]
  have h5 : pre.length + (be16 p.1.length).length = (pre ++ be16 p.1.length).length := by
    simp
  rw [h5, drop_append_right]
  simp only [List.drop_zero]
  exact take_append_length _ _

theorem entryVal_append (pre suf : Bytes) (p : KV) (hk : p.1.length < 65536)
    (hv : p.2.length < 65536) :
    entryVal (pre ++ (encEntry p ++ suf)) pre.length = p.2 := by
  unfold entryVal
  have h1 : read16 (pre ++ (encEntry p ++ suf)) pre.length = p.1.length := by
    rw [read16_shift0]
    have h2 : encEntry p ++ suf
        = be16 p.1.length ++ (p.1 ++ be16 p.2.length ++ p.2 ++ suf) := by
      simp [encEntry]
    rw [h2, read16_be16 _ _ hk]
  rw [h1]
  have hsplit : pre ++ (encEntry p ++ suf)
      = (pre ++ be16 p.1.length ++ p.1) ++ (be16 p.2.length ++ (p.2 ++ suf)) := by
    simp [encEntry]
  have hlen : pre.length + 2 + p.1.length = (pre ++ be16 p.1.length ++ p.1).length := by
    simp [be16]
    omega
  have h6 : read16 (pre ++ (encEntry p ++ suf)) (pre.length + 2 + p.1.length)
      = p.2.length := by
    rw [hsplit, hlen, read16_shift0]
    rw [read16_be16 _ _ hv]
  show ((pre ++ (encEntry p ++ suf)).drop (pre.length + 2 + p.1.length + 2)).take
      (read16 (pre ++ (encEntry p ++ suf)) (pre.length + 2 + p.1.length)) = p.2
  rw [h6]
  have h7 : pre.length + 2 + p.1.length + 2
      = (pre ++ be16 p.1.length ++ p.1).length + (be16 p.2.length).length := by
    simp [be16]
    omega
  rw [hsplit, h7, ← List.append_assoc (pre ++ be16 p.1.length ++ p.1) (be16 p.2.length),
    ← List.length_append, drop_append_length]
  exact take_append_length _ _

theorem chunkData_decomp (c : List KV) (j : Nat) (h : j < c.length) :
    chunkData c
      = chunkData (c.take j) ++ (encEntry (c.getD j ([], [])) ++ chunkData (c.drop (j + 1))) := by
  conv_lhs => rw [← List.take_append_drop j c]
  rw [List.drop_eq_getElem_cons h]
  unfold chunkData
  rw [List.flatMap_append, List.flatMap_cons]
  rw [List.getD_eq_getElem _ _ h]

theorem dataSize_take_length (c : List KV) (j : Nat) :
    dataSize (c.take j) = (chunkData (c.take j)).length := (length_chunkData _).symm

theorem entryKey_chunk (c : List KV) (j : Nat) (h : j < c.length)
    (hfit : ∀ p ∈ c, p.1.length < 65536 ∧ p.2.length < 65536) :
    entryKey (chunkData c) (dataSize (c.take j)) = (c.getD j ([], [])).1 := by
  rw [chunkData_decomp c j h, dataSize_take_length]
  apply entryKey_append
  have hmem : c.getD j ([], []) ∈ c := by
    rw [List.getD_eq_getElem _ _ h]
    exact List.getElem_mem _
  exact (hfit _ hmem).1

theorem entryVal_chunk (c : List KV) (j : Nat) (h : j < c.length)
    (hfit : ∀ p ∈ c, p.1.length < 65536 ∧ p.2.length < 65536) :
    entryVal (chunkData c) (dataSize (c.take j)) = (c.getD j ([], [])).2 := by
  rw [chunkData_decomp c j h, dataSize_take_length]
  have hmem : c.getD j ([], []) ∈ c := by
    rw [List.getD_eq_getElem _ _ h]
    exact List.getElem_mem _
  exact entryVal_append _ _ _ (hfit _ hmem).1 (hfit _ hmem).2

theorem getD_map_bytes (l : List Nat) (f : Nat → Bytes) (i : Nat) (h : i < l.length) :
    (l.map f).getD i [] = f (l.getD i 0) := by
  rw [List.getD_eq_getElem _ _ (by simpa using h), List.getD_eq_getElem _ _ h]
  simp

theorem chunkOffsets_getD (c : List KV) (i : Nat) (h : i < c.length) :
    (chunkOffsets c).getD i 0 = dataSize (c.take i) := by
  unfold chunkOffsets
  rw [List.getD_eq_getElem _ _ (by simpa using h)]
  simp

theorem length_chunkOffsets (c : List KV) : (chunkOffsets c).length = c.length := by
  simp [chunkOffsets]

theorem blockKeys_chunkBlock_getD (c : List KV) (i : Nat) (h : i < c.length)
    (hfit : ∀ p ∈ c, p.1.length < 65536 ∧ p.2.length < 65536) :
    (blockKeys (chunkBlock c)).getD i [] = (c.getD i ([], [])).1 := by
  unfold blockKeys chunkBlock
  rw [getD_map_bytes _ _ _ (by rw [length_chunkOffsets]; exact h)]
  simp only
  rw [chunkOffsets_getD c i h]
  exact entryKey_chunk c i h hfit

theorem blockVals_chunkBlock_getD (c : List KV) (i : Nat) (h : i < c.length)
    (hfit : ∀ p ∈ c, p.1.length < 65536 ∧ p.2.length < 65536) :
    (blockVals (chunkBlock c)).getD i [] = (c.getD i ([], [])).2 := by
  unfold blockVals chunkBlock
  rw [getD_map_bytes _ _ _ (by rw [length_chunkOffsets]; exact h)]
  simp only
  rw [chunkOffsets_getD c i h]
  exact entryVal_chunk c i h hfit

/-! ## Sortedness bridges -/

theorem ascKeys_head (a : Bytes) (rest : List Bytes) (h : ascKeys (a :: rest) = true) :
    ascKeys rest = true ∧ ∀ j, j < rest.length → ltBytes a (rest.getD j []) = true := by
  induction rest generalizing a with
  | nil => exact ⟨rfl, by intro j hj; simp at hj⟩
  | cons b r ih =>
    simp only [ascKeys, Bool.and_eq_true] at h
    obtain ⟨hab, hbr⟩ := h
    obtain ⟨hr, hall⟩ := ih b hbr
    refine ⟨hbr, ?_⟩
    intro j hj
    cases j with
    | zero => exact hab
    | succ m =>
      simp only [List.length_cons, Nat.succ_lt_succ_iff] at hj
      exact ltBytes_trans hab (hall m hj)

theorem ascKeys_pairwise (l : List Bytes) (h : ascKeys l = true) :
    ∀ i j, i < j → j < l.length → ltBytes (l.getD i []) (l.getD j []) = true := by
  induction l with
  | nil => intro i j hij hj; simp at hj
  | cons a rest ih =>
    intro i j hij hj
    obtain ⟨hr, hall⟩ := ascKeys_head a rest h
    cases i with
    | zero =>
      cases j with
      | zero => omega
      | succ m =>
        simp only [List.length_cons, Nat.succ_lt_succ_iff] at hj
        exact hall m hj
    | succ i2 =>
      cases j with
      | zero => omega
      | succ m =>
        simp only [List.length_cons, Nat.succ_lt_succ_iff] at hj
        exact ih hr i2 m (by omega) hj

end MiniLsm

namespace MiniLsm

/-! ## Correctness of the block-level binary search -/

theorem blockKeys_getD (b : Block) (i : Nat) (h : i < b.offsets.length) :
    (blockKeys b).getD i [] = entryKey b.data (b.offsets.getD i 0) := by
  unfold blockKeys
  rw [getD_map_bytes _ _ _ h]

theorem blockVals_getD (b : Block) (i : Nat) (h : i < b.offsets.length) :
    (blockVals b).getD i [] = entryVal b.data (b.offsets.getD i 0) := by
  unfold blockVals
  rw [getD_map_bytes _ _ _ h]

theorem seekLoop_spec (it : BlockIterator) (k : Bytes) (i0 : Nat)
    (hsort : ∀ i j, i < j → j < it.block.offsets.length →
      ltBytes ((blockKeys it.block).getD i []) ((blockKeys it.block).getD j []) = true)
    (hi0 : i0 ≤ it.block.offsets.length)
    (hlt : ∀ j, j < i0 → ltBytes ((blockKeys it.block).getD j []) k = true)
    (hge : i0 < it.block.offsets.length → ltBytes ((blockKeys it.block).getD i0 []) k = false) :
    ∀ n low high, high - low ≤ n → low ≤ i0 → i0 ≤ high →
      high ≤ it.block.offsets.length →
      BlockIterator.seekLoop it k low high =
        (if i0 = it.block.offsets.length then { it with key := [], value := [], idx := i0 }
         else { it with key := (blockKeys it.block).getD i0 [],
                        value := (blockVals it.block).getD i0 [], idx := i0 }) := by
  intro n
  induction n with
  | zero =>
    intro low high h1 h2 h3 h4
    have hlh : ¬ low < high := by omega
    rw [BlockIterator.seekLoop, dif_neg hlh]
    have heq : low = i0 := by omega
    subst heq
    by_cases hend : low = it.block.offsets.length
    · rw [if_pos hend, if_pos hend]
    · rw [if_neg hend, if_neg hend]
      have hlow : low < it.block.offsets.length := by omega
      rw [blockKeys_getD _ _ hlow, blockVals_getD _ _ hlow]
  | succ m ih =>
    intro low high h1 h2 h3 h4
    by_cases hlh : low < high
    · rw [BlockIterator.seekLoop, dif_pos hlh]
      simp only
      have hmlt : (low + high) / 2 < it.block.offsets.length := by omega
      have hmge : low ≤ (low + high) / 2 := by omega
      have hkeymid : entryKey it.block.data (it.block.offsets.getD ((low + high) / 2) 0)
          = (blockKeys it.block).getD ((low + high) / 2) [] :=
        (blockKeys_getD _ _ hmlt).symm
      cases hb : ltBytes (entryKey it.block.data
          (it.block.offsets.getD ((low + high) / 2) 0)) k with
      | true =>
        rw [if_pos rfl]
        have hi0gt : (low + high) / 2 < i0 := by
          by_contra hc
          push_neg at hc
          have hi0lt : i0 < it.block.offsets.length := by omega
          have hno := hge hi0lt
          rcases Nat.lt_or_ge i0 ((low + high) / 2) with hlt2 | hge2
          · have hs := hsort i0 ((low + high) / 2) hlt2 hmlt
            rw [hkeymid] at hb
            have htr := ltBytes_trans hs hb
            rw [htr] at hno
            exact absurd hno (by simp)
          · have heqi : i0 = (low + high) / 2 := by omega
            subst heqi
            rw [hkeymid] at hb
            rw [hb] at hno
            exact absurd hno (by simp)
        exact ih ((low + high) / 2 + 1) high (by omega) (by omega) h3 h4
      | false =>
        rw [if_neg (by simp : ¬ (false = true))]
        by_cases heq2 : entryKey it.block.data
            (it.block.offsets.getD ((low + high) / 2) 0) = k
        · rw [if_pos heq2]
          have hmid_i0 : (low + high) / 2 = i0 := by
            rcases Nat.lt_trichotomy ((low + high) / 2) i0 with hlt2 | heq3 | hgt2
            · have hm := hlt ((low + high) / 2) hlt2
              rw [hkeymid] at heq2
              rw [heq2] at hm
              rw [ltBytes_irrefl] at hm
              exact absurd hm (by simp)
            · exact heq3
            · have hi0lt : i0 < it.block.offsets.length := by omega
              have hno := hge hi0lt
              have hs := hsort i0 ((low + high) / 2) hgt2 hmlt
              rw [← hkeymid, heq2] at hs
              rw [hs] at hno
              exact absurd hno (by simp)
          rw [if_neg (by omega)]
          rw [← hmid_i0, hkeymid, blockVals_getD _ _ hmlt]
        · rw [if_neg heq2]
          have hi0le : i0 ≤ (low + high) / 2 := by
            by_contra hc
            push_neg at hc
            have hm := hlt ((low + high) / 2) hc
            rw [hkeymid] at hb
            rw [hm] at hb
            exact absurd hb (by simp)
          exact ih low ((low + high) / 2) (by omega) h2 hi0le (by omega)
    · rw [BlockIterator.seekLoop, dif_neg hlh]
      have heq : low = i0 := by omega
      subst heq
      by_cases hend : low = it.block.offsets.length
      · rw [if_pos hend, if_pos hend]
      · rw [if_neg hend, if_neg hend]
        have hlow : low < it.block.offsets.length := by omega
        rw [blockKeys_getD _ _ hlow, blockVals_getD _ _ hlow]

/-- C4: on a block whose stored keys are strictly ascending, `seek_to_key`
positions the cursor at the smallest index `i0` whose key is `≥ k` in
unsigned lexicographic byte order (loading that entry's key and value), and
leaves the cursor invalid (`idx = N`, empty key) when every key is `< k`.
The index `i0` is characterized by its two defining properties. -/
theorem c4_block_seek_smallest_ge (it : BlockIterator) (k : Bytes) (i0 : Nat)
    (hsort : ascKeys (blockKeys it.block) = true)
    (hi0 : i0 ≤ it.block.offsets.length)
    (hlt : ∀ j, j < i0 → ltBytes ((blockKeys it.block).getD j []) k = true)
    (hge : i0 < it.block.offsets.length → ltBytes ((blockKeys it.block).getD i0 []) k = false) :
    BlockIterator.seekToKey it k =
      (if i0 = it.block.offsets.length then { it with key := [], value := [], idx := i0 }
       else { it with key := (blockKeys it.block).getD i0 [],
                      value := (blockVals it.block).getD i0 [], idx := i0 }) := by
  have hs := ascKeys_pairwise _ hsort
  have hlen : (blockKeys it.block).length = it.block.offsets.length := by
    simp [blockKeys]
  unfold BlockIterator.seekToKey
  exact seekLoop_spec it k i0
    (fun i j hij hj => hs i j hij (by rw [hlen]; exact hj)) hi0 hlt hge
    it.block.offsets.length 0 it.block.offsets.length (by omega) (by omega) hi0 le_rfl

theorem c4_block_seek_smallest_ge_witness :
    (BlockIterator.seekToKey (BlockIterator.new exampleBlock) [98, 98]).idx = 1 ∧
      (BlockIterator.seekToKey (BlockIterator.new exampleBlock) [98, 98]).key = [99, 99] ∧
      (BlockIterator.seekToKey (BlockIterator.new exampleBlock) [98, 98]).value = [50] ∧
      (BlockIterator.seekToKey (BlockIterator.new exampleBlock) [122]).idx = 4 ∧
      (BlockIterator.seekToKey (BlockIterator.new exampleBlock) [122]).key = [] := by
  have h1 := c4_block_seek_smallest_ge (BlockIterator.new exampleBlock) [98, 98] 1
    (by decide) (by decide) (by decide) (by decide)
  have h2 := c4_block_seek_smallest_ge (BlockIterator.new exampleBlock) [122] 4
    (by decide) (by decide) (by decide) (by decide)
  rw [h1, h2]
  refine ⟨by decide, by decide, by decide, by decide, by decide⟩


/-! ## Claims about the builder acceptance test, rejection frame, oversized
entries, and the read_block byte range -/

/-- C6 counterexample: with byte budget T = 8 and an empty builder, the code
accepts a 1-byte key and 1-byte value (projected size without the entry
count is exactly 8), while the claimed formula, which also counts the
trailing 2-byte entry count, demands rejection. -/
theorem c6_accept_formula_cex :
    ¬ ((((BlockBuilder.new 8).add [97] [98]).fst = true) ↔
      0 + 2 + 1 + 2 + 1 + 2 + 2 ≤ 8) := by decide

/-- C6 amended: `add` accepts exactly when
`C + 2 + key_len + 2 + value_len + 2 ≤ T` — current size plus the entry bytes
plus one u16 offset slot; the trailing 2-byte entry count is not part of the
test. -/
theorem c6_accept_iff (b : BlockBuilder) (key value : Bytes) :
    ((b.add key value).fst = true) ↔
      b.current_size + 2 + key.length + 2 + value.length + 2 ≤ b.target_size := by
  unfold BlockBuilder.add
  by_cases h : b.target_size < b.current_size + (2 + 2 + key.length + value.length) + 2
  · rw [if_pos h]
    simp only [Bool.false_eq_true, false_iff]
    omega
  · rw [if_neg h]
    simp only [true_iff]
    omega

/-- C9: when `add` returns false the builder is returned unchanged — same
buffered entries, same running counter, and `is_empty` and `size` agree. -/
theorem c9_reject_frame (b : BlockBuilder) (key value : Bytes)
    (h : (b.add key value).fst = false) :
    (b.add key value).snd = b ∧
      (b.add key value).snd.kvs = b.kvs ∧
      (b.add key value).snd.current_size = b.current_size ∧
      (b.add key value).snd.isEmpty = b.isEmpty ∧
      (b.add key value).snd.size = b.size := by
  unfold BlockBuilder.add at h ⊢
  by_cases hc : b.target_size < b.current_size + (2 + 2 + key.length + value.length) + 2
  · rw [if_pos hc]
    exact ⟨rfl, rfl, rfl, rfl, rfl⟩
  · rw [if_neg hc] at h
    simp at h

theorem c9_reject_frame_witness :
    ((BlockBuilder.new 4).add [97] []).snd = BlockBuilder.new 4 ∧
      ((BlockBuilder.new 4).add [97] []).snd.kvs = (BlockBuilder.new 4).kvs ∧
      ((BlockBuilder.new 4).add [97] []).snd.current_size = (BlockBuilder.new 4).current_size ∧
      ((BlockBuilder.new 4).add [97] []).snd.isEmpty = (BlockBuilder.new 4).isEmpty ∧
      ((BlockBuilder.new 4).add [97] []).snd.size = (BlockBuilder.new 4).size :=
  c9_reject_frame (BlockBuilder.new 4) [97] [] (by decide)

/-- C7 (evaluating the code at the failing input): a single entry whose encoded
size plus overhead exceeds the budget is rejected by an empty BlockBuilder,
and `SsTableBuilder::add` then fails its `assert!` — a panic, modelled as
`none` — instead of returning an `OversizedEntry` error. -/
theorem c7_oversized_entry_panics :
    ((BlockBuilder.new 16).add (List.replicate 20 120) []).fst = false ∧
      ((SsTableBuilder.new 16).bind fun s => s.add (List.replicate 20 120) []) = none := by
  decide

/-- C5 counterexample: a table whose metas satisfy the claimed build-end
invariant with S = 4096 (`offset ≤ i·S + S`), on which `read_block(1)`
requests the byte range starting at 4196 (the code's slot constant), not at
4096 as the claim states. -/
theorem c5_slot4096_cex :
    SsTable.readBlockRange ⟨[], [⟨10, 1, [97]⟩, ⟨4206, 1, [98]⟩], 0⟩ 1 = some (4196, 10) ∧
      SsTable.readBlockRange ⟨[], [⟨10, 1, [97]⟩, ⟨4206, 1, [98]⟩], 0⟩ 1 ≠ some (4096, 110) := by
  decide

/-- C5 amended: the slot constant is 4196.  When `block_metas[i].offset` lies
inside block i's slot (at least `i·4196`, strictly below `(i+1)·4196`),
`read_block(i)` requests exactly the byte range `[i·4196, offset)` from the
file and decodes a Block from those bytes. -/
theorem c5_read_block_range (t : SsTable) (i : Nat) (m : BlockMeta)
    (hm : t.block_metas.get? i = some m)
    (hlo : 4196 * i ≤ m.offset) (hhi : m.offset < 4196 * (i + 1)) :
    t.readBlockRange i = some (4196 * i, m.offset - 4196 * i) ∧
      t.readBlock i = (fileRead t.file (4196 * i) (m.offset - 4196 * i)).bind Block.decode := by
  have hdiv : m.offset / 4196 * 4196 = 4196 * i := by omega
  constructor
  · unfold SsTable.readBlockRange
    rw [hm]
    simp only [Option.map]
    rw [hdiv]
  · show (t.block_metas.get? i).bind (fun m =>
      (fileRead t.file (m.offset / 4196 * 4196) (m.offset - m.offset / 4196 * 4196)).bind
        Block.decode) = _
    rw [hm, Option.some_bind, hdiv]

theorem c5_read_block_range_witness :
    SsTable.readBlockRange ⟨List.replicate 4206 7, [⟨10, 1, [97]⟩, ⟨4206, 1, [98]⟩], 0⟩ 1
        = some (4196 * 1, 4206 - 4196 * 1) ∧
      SsTable.readBlock ⟨List.replicate 4206 7, [⟨10, 1, [97]⟩, ⟨4206, 1, [98]⟩], 0⟩ 1
        = (fileRead (List.replicate 4206 7) (4196 * 1) (4206 - 4196 * 1)).bind Block.decode :=
  c5_read_block_range ⟨List.replicate 4206 7, [⟨10, 1, [97]⟩, ⟨4206, 1, [98]⟩], 0⟩ 1
    ⟨4206, 1, [98]⟩ (by decide) (by decide) (by decide)


/-- C8 (evaluating the code at the failing input): on a one-entry table the
first `next()` leaves the iterator invalid, and the following `next()` indexes
`offsets[idx+1]` out of bounds in `BlockIterator::next` — a panic, modelled as
`none` — rather than being a state-preserving no-op. -/
theorem c8_next_after_end_panics :
    ((SsTableIterator.createAndSeekToFirst exampleTable).bind
        (fun it => it.next.map fun it1 => it1.isValid) = some false) ∧
      ((SsTableIterator.createAndSeekToFirst exampleTable).bind
        (fun it => it.next.bind SsTableIterator.next) = none) := by
  decide


/-! ## Arithmetic of chunk sizes -/

theorem chunkSize_cons (p : KV) (c : List KV) :
    chunkSize (p :: c) = entrySize p + 2 + chunkSize c := by
  simp [chunkSize]

theorem chunkSize_append_one (c : List KV) (p : KV) :
    chunkSize (c ++ [p]) = chunkSize c + (entrySize p + 2) := by
  simp [chunkSize]

theorem dataSize_cons (p : KV) (c : List KV) :
    dataSize (p :: c) = entrySize p + dataSize c := by
  simp [dataSize]

theorem dataSize_le_chunkSize (c : List KV) : dataSize c ≤ chunkSize c := by
  induction c with
  | nil => simp [dataSize, chunkSize]
  | cons p rest ih =>
    rw [dataSize_cons, chunkSize_cons]
    omega

theorem dataSize_take_le (c : List KV) (i : Nat) : dataSize (c.take i) ≤ dataSize c := by
  induction c generalizing i with
  | nil => simp
  | cons p rest ih =>
    cases i with
    | zero => simp [dataSize]
    | succ m =>
      rw [List.take_succ_cons, dataSize_cons, dataSize_cons]
      have := ih m
      omega

theorem entrySize_le_dataSize (c : List KV) (p : KV) (h : p ∈ c) :
    entrySize p ≤ dataSize c := by
  induction c with
  | nil => simp at h
  | cons q rest ih =>
    rw [dataSize_cons]
    rcases List.mem_cons.mp h with h1 | h1
    · subst h1
      omega
    · have := ih h1
      omega

theorem length_le_chunkSize (c : List KV) : c.length ≤ chunkSize c := by
  induction c with
  | nil => simp [chunkSize]
  | cons p rest ih =>
    rw [chunkSize_cons]
    simp only [List.length_cons]
    have h : 0 ≤ entrySize p := Nat.zero_le _
    omega

theorem chunkSize_eq_dataSize (c : List KV) : chunkSize c = dataSize c + 2 * c.length := by
  induction c with
  | nil => simp [chunkSize, dataSize]
  | cons p rest ih =>
    rw [chunkSize_cons, dataSize_cons, ih]
    simp only [List.length_cons]
    omega

/-! ## BlockBuilder.build on an accepted chunk -/

theorem build_fold (c : List KV) (d0 : Bytes) (os0 : List Nat) (cur0 : Nat)
    (h : cur0 + dataSize c < 65536) :
    (c.map mkEntry).foldl
        (fun (acc : Bytes × List Nat × Nat) kv =>
          (acc.1 ++ be16 kv.key.length ++ kv.key ++ be16 kv.val.length ++ kv.val,
           acc.2.1 ++ [acc.2.2],
           (acc.2.2 + kv.total_size) % 65536))
        (d0, os0, cur0)
      = (d0 ++ chunkData c,
         os0 ++ (List.range c.length).map (fun i => cur0 + dataSize (c.take i)),
         (cur0 + dataSize c) % 65536) := by
  induction c generalizing d0 os0 cur0 with
  | nil =>
    simp [chunkData, dataSize] at h ⊢
    omega
  | cons p rest ih =>
    rw [dataSize_cons] at h
    simp only [List.map_cons, List.foldl_cons, mkEntry]
    have hes : entrySize p < 65536 := by omega
    have hts : (2 + 2 + p.1.length + p.2.length) % 65536 = entrySize p := by
      have he : 2 + 2 + p.1.length + p.2.length = entrySize p := rfl
      rw [he, Nat.mod_eq_of_lt hes]
    rw [hts]
    have hcur : (cur0 + entrySize p) % 65536 = cur0 + entrySize p :=
      Nat.mod_eq_of_lt (by omega)
    rw [hcur, ih _ _ _ (by omega)]
    simp only [Prod.mk.injEq]
    refine ⟨?_, ?_, ?_⟩
    · simp [chunkData, encEntry]
    · simp only [List.length_cons]
      rw [List.range_succ_eq_map, List.map_cons, List.map_map]
      have hf : ((fun i => cur0 + dataSize ((p :: rest).take i)) ∘ (fun i => i + 1))
          = fun i => cur0 + entrySize p + dataSize (rest.take i) := by
        funext i
        simp only [Function.comp]
        rw [List.take_succ_cons, dataSize_cons]
        omega
      rw [hf]
      have h0 : cur0 + dataSize ((p :: rest).take 0) = cur0 := by
        simp [dataSize]
      rw [List.take_zero] at h0
      simp only [List.take_zero, h0]
      simp [List.append_assoc]
    · rw [dataSize_cons]
      omega

theorem build_cur (c : List KV) (sz bs : Nat) (hsz : dataSize c < 65536) :
    BlockBuilder.build ⟨c.map mkEntry, sz, bs⟩ = chunkBlock c := by
  unfold BlockBuilder.build
  simp only
  rw [build_fold c [] [] 0 (by omega)]
  simp only [List.nil_append, chunkBlock, chunkOffsets]
  congr 1
  apply List.map_congr_left
  intro i hi
  omega


/-! ## The SsTableBuilder state machine -/

theorem metasOf_append_one (done : List (List KV)) (c : List KV) (i : Nat) :
    metasOf i (done ++ [c]) = metasOf i done ++
      [⟨4196 * (i + done.length) + chunkSize c + 2, (headKeyD c).length % 65536, headKeyD c⟩] := by
  induction done generalizing i with
  | nil => simp [metasOf]
  | cons a rest ih =>
    simp only [List.cons_append, metasOf, List.length_cons, List.append_eq]
    rw [ih]
    have harith : i + 1 + rest.length = i + (rest.length + 1) := by omega
    rw [harith]

theorem sstAdd_step (bs : Nat) (done : List (List KV)) (cur : List KV) (p : KV)
    (hbs : bs ≤ 4193)
    (hfit : entrySize p + 2 ≤ bs)
    (hkey : cur ≠ [] → headKeyD cur ≠ [])
    (hcur : chunkSize cur ≤ bs)
    (hcount : done.length ≤ 1000000) :
    (builderState bs done cur).add p.1 p.2 =
      (if bs < chunkSize cur + entrySize p + 2 then
        some (builderState bs (done ++ [cur]) [p])
      else some (builderState bs done (cur ++ [p]))) := by
  have hes : entrySize p = 2 + 2 + p.1.length + p.2.length := rfl
  by_cases hc : bs < chunkSize cur + entrySize p + 2
  · rw [if_pos hc]
    have hba : BlockBuilder.add ⟨cur.map mkEntry, chunkSize cur, bs⟩ p.1 p.2
        = (false, ⟨cur.map mkEntry, chunkSize cur, bs⟩) := by
      simp only [BlockBuilder.add]
      rw [if_pos (by omega)]
    have hba2 : BlockBuilder.add (BlockBuilder.new bs) p.1 p.2
        = (true, ⟨[⟨p.1, p.2, (2 + 2 + p.1.length + p.2.length) % 65536⟩],
            0 + (2 + 2 + p.1.length + p.2.length) + 2, bs⟩) := by
      simp only [BlockBuilder.add, BlockBuilder.new]
      rw [if_neg (by omega)]
      rfl
    unfold SsTableBuilder.add
    simp only [builderState]
    rw [hba]
    simp only
    rw [hba2]
    simp only [SsTableBuilder.mk.injEq, Option.some.injEq]
    refine ⟨?_, ?_, ?_, ?_, trivial, rfl⟩
    · rw [metasOf_append_one]
      simp only [Nat.zero_add, BlockBuilder.size]
      have h1 : (chunkSize cur + 2) % 2 ^ 32 = chunkSize cur + 2 :=
        Nat.mod_eq_of_lt (by omega)
      have h2 : (4196 * done.length + (chunkSize cur + 2)) % 2 ^ 32
          = 4196 * done.length + chunkSize cur + 2 := by
        rw [Nat.mod_eq_of_lt (by omega)]
        omega
      rw [h1, h2]
    · rw [List.map_append]
      simp only [List.map_cons, List.map_nil]
      rw [build_cur cur (chunkSize cur) bs (by have := dataSize_le_chunkSize cur; omega)]
    · simp only [mkEntry, List.map_cons, List.map_nil, BlockBuilder.mk.injEq, true_and,
        and_true]
      rw [← hes]
      simp [chunkSize]
    · simp only [List.length_append, List.length_cons, List.length_nil]
      rw [Nat.mod_eq_of_lt (by omega)]
      omega
  · rw [if_neg hc]
    have hba : BlockBuilder.add ⟨cur.map mkEntry, chunkSize cur, bs⟩ p.1 p.2
        = (true, ⟨cur.map mkEntry ++ [⟨p.1, p.2, (2 + 2 + p.1.length + p.2.length) % 65536⟩],
            chunkSize cur + (2 + 2 + p.1.length + p.2.length) + 2, bs⟩) := by
      simp only [BlockBuilder.add]
      rw [if_neg (by omega)]
    unfold SsTableBuilder.add
    simp only [builderState]
    rw [hba]
    simp only [SsTableBuilder.mk.injEq, Option.some.injEq]
    refine ⟨trivial, trivial, ?_, trivial, trivial, ?_⟩
    · simp only [List.map_append, List.map_cons, List.map_nil, mkEntry,
        BlockBuilder.mk.injEq, true_and, and_true]
      rw [chunkSize_append_one, ← hes]
      omega
    · cases cur with
      | nil => simp [headKeyD]
      | cons q rest =>
        have hq : headKeyD (q :: rest) ≠ [] := hkey (by simp)
        simp only [headKeyD] at hq
        simp only [headKeyD, List.cons_append]
        rw [if_neg (by simpa using hq)]


theorem chunkSize_single (p : KV) : chunkSize [p] = entrySize p + 2 := by
  simp [chunkSize]

theorem sstAdd_fold_aux (bs : Nat) (hbs : bs ≤ 4193) :
    ∀ (suf : List KV) (done : List (List KV)) (cur : List KV),
      (∀ p ∈ suf, entrySize p + 2 ≤ bs ∧ p.1 ≠ []) →
      (∀ c ∈ done, c ≠ [] ∧ chunkSize c ≤ bs) →
      chunkSize cur ≤ bs →
      (cur ≠ [] → headKeyD cur ≠ []) →
      (cur = [] → done = []) →
      done.length + suf.length ≤ 1000000 →
      ∃ done2 cur2,
        List.foldlM (fun st (q : KV) => st.add q.1 q.2) (builderState bs done cur) suf
          = some (builderState bs done2 cur2) ∧
        done2.flatten ++ cur2 = done.flatten ++ (cur ++ suf) ∧
        (∀ c ∈ done2, c ≠ [] ∧ chunkSize c ≤ bs) ∧
        chunkSize cur2 ≤ bs ∧
        (cur2 ≠ [] → headKeyD cur2 ≠ []) ∧
        (cur2 = [] → done2 = []) ∧
        done2.length ≤ 1000000 := by
  intro suf
  induction suf with
  | nil =>
    intro done cur hsuf hdone hcur hkey hemp hcount
    refine ⟨done, cur, rfl, by simp, hdone, hcur, hkey, hemp, by simp at hcount; omega⟩
  | cons p rest ih =>
    intro done cur hsuf hdone hcur hkey hemp hcount
    have hp := hsuf p (by simp)
    rw [List.foldlM_cons]
    rw [sstAdd_step bs done cur p hbs hp.1 hkey hcur (by simp at hcount; omega)]
    by_cases hc : bs < chunkSize cur + entrySize p + 2
    · rw [if_pos hc]
      have hcne : cur ≠ [] := by
        intro h0
        subst h0
        simp [chunkSize] at hc
        omega
      obtain ⟨d2, c2, hfold, hflat, hd2, hc2, hk2, he2, hn2⟩ :=
        ih (done ++ [cur]) [p]
          (fun q hq => hsuf q (by simp [hq]))
          (fun c hcm => by
            rcases List.mem_append.mp hcm with h1 | h1
            · exact hdone c h1
            · simp only [List.mem_singleton] at h1
              subst h1
              exact ⟨hcne, hcur⟩)
          (by rw [chunkSize_single]; exact hp.1)
          (fun h1 => by simp only [headKeyD]; exact hp.2)
          (fun h1 => by cases h1)
          (by simp at hcount ⊢; omega)
      refine ⟨d2, c2, ?_, ?_, hd2, hc2, hk2, he2, hn2⟩
      · simpa using hfold
      · rw [hflat]
        simp [List.flatten_append]
    · rw [if_neg hc]
      obtain ⟨d2, c2, hfold, hflat, hd2, hc2, hk2, he2, hn2⟩ :=
        ih done (cur ++ [p])
          (fun q hq => hsuf q (by simp [hq]))
          hdone
          (by rw [chunkSize_append_one]; omega)
          (fun h1 => by
            cases cur with
            | nil => simp only [List.nil_append, headKeyD]; exact hp.2
            | cons q r =>
              have := hkey (by simp)
              simpa [headKeyD] using this)
          (fun h1 => by simp at h1)
          (by simp at hcount ⊢; omega)
      refine ⟨d2, c2, ?_, ?_, hd2, hc2, hk2, he2, hn2⟩
      · simpa using hfold
      · rw [hflat]
        simp


theorem optionBind_some {α β : Type} (a : α) (f : α → Option β) :
    (some a).bind f = f a := rfl

theorem encode_length (b : Block) :
    b.encode.length = b.data.length + 2 * b.offsets.length + 2 := by
  unfold Block.encode
  rw [List.length_append, List.length_append, length_flatMap_be16, List.length_reverse]
  simp [be16]

theorem encode_chunkBlock_length (c : List KV) :
    (chunkBlock c).encode.length = chunkSize c + 2 := by
  rw [encode_length]
  simp only [chunkBlock, length_chunkData, length_chunkOffsets]
  rw [chunkSize_eq_dataSize]

theorem slotOf_length (c : List KV) (h : chunkSize c ≤ 4193) :
    (slotOf c).length = 4196 := by
  unfold slotOf
  rw [List.length_append, List.length_replicate, encode_chunkBlock_length]
  omega

theorem slots_fold (chunks : List (List KV)) (acc : Bytes)
    (h : ∀ c ∈ chunks, chunkSize c ≤ 4193) :
    (chunks.map chunkBlock).foldlM slotStep acc = some (acc ++ slotsOf chunks) := by
  induction chunks generalizing acc with
  | nil => simp [slotsOf]
  | cons c rest ih =>
    simp only [List.map_cons, List.foldlM_cons]
    have hlen : (chunkBlock c).encode.length = chunkSize c + 2 := encode_chunkBlock_length c
    have hs : slotStep acc (chunkBlock c) = some (acc ++ slotOf c) := by
      unfold slotStep slotOf
      rw [if_neg (by rw [hlen]; have := h c (by simp); omega)]
      rw [List.append_assoc]
    rw [hs]
    have hgoal : List.foldlM slotStep (acc ++ slotOf c) (List.map chunkBlock rest)
        = some (acc ++ slotsOf (c :: rest)) := by
      rw [ih (acc ++ slotOf c) (fun c2 hm => h c2 (by simp [hm]))]
      simp [slotsOf, List.append_assoc]
    simpa using hgoal

theorem sstBuild_builderState (bs : Nat) (done : List (List KV)) (cur : List KV)
    (hbs : bs ≤ 4193)
    (hdone : ∀ c ∈ done, c ≠ [] ∧ chunkSize c ≤ bs)
    (hcur : chunkSize cur ≤ bs) (hne : cur ≠ [])
    (hcount : done.length ≤ 1000000) :
    (builderState bs done cur).build = some (builtTable (done ++ [cur])) := by
  unfold SsTableBuilder.build
  simp only [builderState]
  rw [slots_fold done [] (fun c hm => le_trans (hdone c hm).2 hbs)]
  show (some (([] : Bytes) ++ slotsOf done)).bind _ = _
  rw [optionBind_some]
  simp only [List.nil_append]
  have hie : BlockBuilder.isEmpty ⟨cur.map mkEntry, chunkSize cur, bs⟩ = false := by
    unfold BlockBuilder.isEmpty
    cases cur with
    | nil => exact absurd rfl hne
    | cons q r => simp
  rw [if_neg (by simp [hie])]
  rw [build_cur cur (chunkSize cur) bs (by have := dataSize_le_chunkSize cur; omega)]
  rw [if_neg (by rw [encode_chunkBlock_length]; omega)]
  simp only [BlockBuilder.size]
  have hm1 : (chunkSize cur + 2) % 2 ^ 32 = chunkSize cur + 2 := Nat.mod_eq_of_lt (by omega)
  have hm2 : (4196 * done.length + (chunkSize cur + 2)) % 2 ^ 32
      = 4196 * done.length + chunkSize cur + 2 := by
    rw [Nat.mod_eq_of_lt (by omega)]
    omega
  have hm3 : (4196 * done.length + 4196) % 2 ^ 32 = 4196 * (done.length + 1) :=
    by rw [Nat.mod_eq_of_lt (by omega)]; omega
  rw [hm1, hm2, hm3]
  unfold builtTable
  simp only [Option.some.injEq, SsTable.mk.injEq]
  have hmetas : metasOf 0 done ++
      [⟨4196 * done.length + chunkSize cur + 2, (headKeyD cur).length % 65536, headKeyD cur⟩]
      = metasOf 0 (done ++ [cur]) := by
    rw [metasOf_append_one]
    simp
  have hlen2 : (done ++ [cur]).length = done.length + 1 := by simp
  have hslots : slotsOf (done ++ [cur]) = slotsOf done ++ slotOf cur := by
    unfold slotsOf
    rw [List.flatMap_append]
    simp
  refine ⟨?_, hmetas, by rw [hlen2]⟩
  rw [hslots, ← hmetas, hlen2]
  unfold slotOf
  simp [List.append_assoc]


theorem buildFromPairs_chunks (bs : Nat) (pairs : List KV)
    (hbs : bs ≤ 4193) (hne : pairs ≠ []) (hcount : pairs.length ≤ 1000000)
    (hfit : ∀ p ∈ pairs, entrySize p + 2 ≤ bs)
    (hkeys : ∀ p ∈ pairs, p.1 ≠ []) :
    ∃ chunks, chunks.flatten = pairs ∧ chunks ≠ [] ∧
      (∀ c ∈ chunks, c ≠ [] ∧ chunkSize c ≤ bs) ∧
      chunks.length ≤ 1000001 ∧
      buildFromPairs bs pairs = some (builtTable chunks) := by
  obtain ⟨d2, c2, hfold, hflat, hd2, hc2, hk2, he2, hn2⟩ :=
    sstAdd_fold_aux bs hbs pairs [] []
      (fun p hp => ⟨hfit p hp, hkeys p hp⟩)
      (fun c hm => absurd hm (List.not_mem_nil c))
      (by simp [chunkSize])
      (fun h1 => absurd rfl h1)
      (fun _ => rfl)
      (by simpa using hcount)
  simp only [List.flatten_nil, List.nil_append] at hflat
  have hc2ne : c2 ≠ [] := by
    intro h0
    rw [he2 h0, h0] at hflat
    simp at hflat
    exact hne hflat
  have hnew : SsTableBuilder.new bs = some (builderState bs [] []) := by
    unfold SsTableBuilder.new builderState
    rw [if_neg (by omega)]
    rfl
  refine ⟨d2 ++ [c2], ?_, by simp, ?_, ?_, ?_⟩
  · rw [List.flatten_append]
    simpa using hflat
  · intro c hm
    rcases List.mem_append.mp hm with h1 | h1
    · exact hd2 c h1
    · simp only [List.mem_singleton] at h1
      subst h1
      exact ⟨hc2ne, hc2⟩
  · simp only [List.length_append, List.length_cons, List.length_nil]
    omega
  · unfold buildFromPairs
    rw [hnew]
    show (some (builderState bs [] [])).bind _ = _
    rw [optionBind_some]
    show (List.foldlM (fun (st : SsTableBuilder) (q : KV) => st.add q.1 q.2)
      (builderState bs [] []) pairs).bind _ = _
    rw [hfold, optionBind_some]
    exact sstBuild_builderState bs d2 c2 hbs hd2 hc2 hc2ne hn2


theorem chunkSize_pos (c : List KV) (h : c ≠ []) : 6 ≤ chunkSize c := by
  cases c with
  | nil => exact absurd rfl h
  | cons p r =>
    rw [chunkSize_cons]
    have h2 : 4 ≤ entrySize p := by unfold entrySize; omega
    omega

theorem metasOf_getElem? (chunks : List (List KV)) (n i : Nat) (h : i < chunks.length) :
    (metasOf n chunks).get? i = some ⟨4196 * (n + i) + chunkSize (chunks.getD i []) + 2,
      (headKeyD (chunks.getD i [])).length % 65536, headKeyD (chunks.getD i [])⟩ := by
  induction chunks generalizing n i with
  | nil => simp at h
  | cons c rest ih =>
    cases i with
    | zero => simp [metasOf]
    | succ m =>
      simp only [metasOf, List.get?_cons_succ, List.getD_cons_succ]
      rw [ih (n + 1) m (by simpa using h)]
      have harith : 4196 * (n + 1 + m) = 4196 * (n + (m + 1)) := by omega
      rw [harith]

theorem slotsOf_length (chunks : List (List KV))
    (h : ∀ c ∈ chunks, chunkSize c ≤ 4193) :
    (slotsOf chunks).length = 4196 * chunks.length := by
  induction chunks with
  | nil => simp [slotsOf]
  | cons c rest ih =>
    have hc : (slotOf c).length = 4196 := slotOf_length c (h c (by simp))
    have hr := ih (fun c2 hm => h c2 (by simp [hm]))
    simp only [slotsOf, List.flatMap_cons, List.length_append] at *
    rw [hc, hr]
    simp only [List.length_cons]
    omega

theorem slots_drop (chunks : List (List KV)) (R : Bytes) (i : Nat) (h : i < chunks.length)
    (hch : ∀ c ∈ chunks, chunkSize c ≤ 4193) :
    (slotsOf chunks ++ R).drop (4196 * i)
      = slotOf (chunks.getD i []) ++ (slotsOf (chunks.drop (i + 1)) ++ R) := by
  induction chunks generalizing i R with
  | nil => simp at h
  | cons c rest ih =>
    have hsplit : slotsOf (c :: rest) = slotOf c ++ slotsOf rest := by
      simp [slotsOf]
    cases i with
    | zero =>
      rw [Nat.mul_zero, List.drop_zero, hsplit, List.append_assoc]
      simp
    | succ m =>
      rw [hsplit, List.append_assoc]
      have hidx : 4196 * (m + 1) = (slotOf c).length + 4196 * m := by
        rw [slotOf_length c (hch c (by simp))]
        omega
      rw [hidx, drop_append_right]
      rw [ih R m (by simpa using h) (fun c2 hm => hch c2 (by simp [hm]))]
      simp


theorem readBlock_builtTable (chunks : List (List KV)) (i : Nat)
    (hi : i < chunks.length)
    (hch : ∀ c ∈ chunks, c ≠ [] ∧ chunkSize c ≤ 4193) :
    (builtTable chunks).readBlock i = some (chunkBlock (chunks.getD i [])) := by
  have hcm : chunks.getD i [] ∈ chunks := by
    rw [List.getD_eq_getElem _ _ hi]
    exact List.getElem_mem _
  obtain ⟨hcne, hcs⟩ := hch _ hcm
  have hpos := chunkSize_pos _ hcne
  unfold SsTable.readBlock
  show ((builtTable chunks).block_metas.get? i).bind _ = _
  have hmetas : (builtTable chunks).block_metas = metasOf 0 chunks := rfl
  rw [hmetas, metasOf_getElem? chunks 0 i hi, optionBind_some]
  simp only [Nat.zero_add]
  have hdiv : (4196 * i + chunkSize (chunks.getD i []) + 2) / 4196 * 4196 = 4196 * i := by
    omega
  have hsub : 4196 * i + chunkSize (chunks.getD i []) + 2
      - (4196 * i + chunkSize (chunks.getD i []) + 2) / 4196 * 4196
      = chunkSize (chunks.getD i []) + 2 := by omega
  rw [hdiv] at hsub
  rw [hdiv, hsub]
  have hfile : (builtTable chunks).file = slotsOf chunks ++
      (BlockMeta.encodeBlockMeta (metasOf 0 chunks) ++ be32 (4196 * chunks.length)) := by
    show slotsOf chunks ++ BlockMeta.encodeBlockMeta (metasOf 0 chunks)
        ++ be32 (4196 * chunks.length) = _
    rw [List.append_assoc]
  have hslen : (slotsOf chunks).length = 4196 * chunks.length :=
    slotsOf_length chunks (fun c2 hm => (hch c2 hm).2)
  have hread : fileRead (builtTable chunks).file (4196 * i)
      (chunkSize (chunks.getD i []) + 2) = some (chunkBlock (chunks.getD i [])).encode := by
    unfold fileRead
    rw [if_pos ?hbound]
    case hbound =>
      rw [hfile, List.length_append, hslen]
      have h9 : chunkSize (chunks.getD i []) + 2 ≤ 4195 := by omega
      have h10 : i + 1 ≤ chunks.length := hi
      calc 4196 * i + (chunkSize (chunks.getD i []) + 2)
          ≤ 4196 * i + 4196 := by omega
        _ = 4196 * (i + 1) := by omega
        _ ≤ 4196 * chunks.length := by
            exact Nat.mul_le_mul_left 4196 h10
        _ ≤ 4196 * chunks.length +
            (BlockMeta.encodeBlockMeta (metasOf 0 chunks) ++ be32 (4196 * chunks.length)).length
            := by omega
    rw [hfile, slots_drop chunks _ i hi (fun c2 hm => (hch c2 hm).2)]
    have htake : chunkSize (chunks.getD i []) + 2
        = (chunkBlock (chunks.getD i [])).encode.length :=
      (encode_chunkBlock_length _).symm
    rw [htake]
    unfold slotOf
    rw [List.append_assoc, take_append_length]
  rw [hread]
  show (some (chunkBlock (chunks.getD i [])).encode).bind Block.decode = _
  rw [optionBind_some]
  apply Block.decode_encode
  · show (chunkOffsets (chunks.getD i [])).length < 65536
    rw [length_chunkOffsets]
    have h11 := length_le_chunkSize (chunks.getD i [])
    omega
  · intro o hm
    have hm2 : o ∈ chunkOffsets (chunks.getD i []) := hm
    unfold chunkOffsets at hm2
    rcases List.mem_map.mp hm2 with ⟨j, hj, rfl⟩
    have h1 := dataSize_take_le (chunks.getD i []) j
    have h2 := dataSize_le_chunkSize (chunks.getD i [])
    omega


theorem scanLoop_invalid (n : Nat) (it : SsTableIterator) (h : it.isValid = false) :
    scanLoop n it = some [] := by
  cases n with
  | zero =>
    unfold scanLoop
    rw [if_neg (by simp [h])]
  | succ m =>
    unfold scanLoop
    rw [if_neg (by simp [h])]

theorem chunkOffsets_get? (c : List KV) (i : Nat) (h : i < c.length) :
    (chunkOffsets c).get? i = some (dataSize (c.take i)) := by
  unfold chunkOffsets
  simp [List.get?_eq_getElem?, List.getElem?_map, List.getElem?_range, h]

theorem dropD {α : Type} (l : List α) (d : α) (j : Nat) (h : j < l.length) :
    l.drop j = l.getD j d :: l.drop (j + 1) := by
  rw [List.drop_eq_getElem_cons h, List.getD_eq_getElem _ _ h]

theorem kvDrop (c : List KV) (j : Nat) (h : j < c.length) :
    c.drop j = c.getD j ([], []) :: c.drop (j + 1) :=
  dropD c ([], []) j h

theorem chunk_fit (c : List KV) (h : chunkSize c ≤ 4193) :
    ∀ p ∈ c, p.1.length < 65536 ∧ p.2.length < 65536 := by
  intro p hp
  have h1 := entrySize_le_dataSize c p hp
  have h2 := dataSize_le_chunkSize c
  unfold entrySize at h1
  omega

theorem metasOf_length (n : Nat) (chunks : List (List KV)) :
    (metasOf n chunks).length = chunks.length := by
  induction chunks generalizing n with
  | nil => rfl
  | cons c rest ih => simp [metasOf, ih]

theorem getD_mem (c : List KV) (j : Nat) (h : j < c.length) : c.getD j ([], []) ∈ c := by
  rw [List.getD_eq_getElem _ _ h]
  exact List.getElem_mem _

theorem chunkBlock_offsets (c : List KV) : (chunkBlock c).offsets = chunkOffsets c := rfl

theorem entryKey_chunkBlock (c : List KV) (j : Nat) (h : j < c.length)
    (hfit : ∀ p ∈ c, p.1.length < 65536 ∧ p.2.length < 65536) :
    entryKey (chunkBlock c).data (dataSize (c.take j)) = (c.getD j ([], [])).1 :=
  entryKey_chunk c j h hfit

theorem entryVal_chunkBlock (c : List KV) (j : Nat) (h : j < c.length)
    (hfit : ∀ p ∈ c, p.1.length < 65536 ∧ p.2.length < 65536) :
    entryVal (chunkBlock c).data (dataSize (c.take j)) = (c.getD j ([], [])).2 :=
  entryVal_chunk c j h hfit

theorem scanLoop_builtTable (chunks : List (List KV))
    (hch : ∀ c ∈ chunks, c ≠ [] ∧ chunkSize c ≤ 4193)
    (hkeys : ∀ c ∈ chunks, ∀ p ∈ c, p.1 ≠ []) :
    ∀ n i j, i < chunks.length → j < (chunks.getD i []).length →
      ((chunks.getD i []).drop j ++ (chunks.drop (i + 1)).flatten).length ≤ n →
      scanLoop n ⟨builtTable chunks, i,
          ⟨chunkBlock (chunks.getD i []),
           ((chunks.getD i []).getD j ([], [])).1,
           ((chunks.getD i []).getD j ([], [])).2, j⟩⟩
        = some ((chunks.getD i []).drop j ++ (chunks.drop (i + 1)).flatten) := by
  intro n
  induction n with
  | zero =>
    intro i j hi hj hlen
    exfalso
    rw [List.length_append, List.length_drop] at hlen
    omega
  | succ m ih =>
    intro i j hi hj hlen
    have hcm : chunks.getD i [] ∈ chunks := by
      rw [List.getD_eq_getElem _ _ hi]
      exact List.getElem_mem _
    have hfitc := chunk_fit _ (hch _ hcm).2
    have hkey : ((chunks.getD i []).getD j ([], [])).1 ≠ [] :=
      hkeys _ hcm _ (getD_mem _ _ hj)
    have hklen : ((chunks.getD i []).getD j ([], [])).1.length ≠ 0 := fun h0 =>
      hkey (List.length_eq_zero.mp h0)
    have hvalid : SsTableIterator.isValid ⟨builtTable chunks, i,
        ⟨chunkBlock (chunks.getD i []),
         ((chunks.getD i []).getD j ([], [])).1,
         ((chunks.getD i []).getD j ([], [])).2, j⟩⟩ = true := by
      simpa [SsTableIterator.isValid, BlockIterator.isValid, bne_iff_ne] using hklen
    have hofflen : (chunkBlock (chunks.getD i [])).offsets.length
        = (chunks.getD i []).length := by
      show (chunkOffsets _).length = _
      exact length_chunkOffsets _
    by_cases hj1 : j + 1 = (chunks.getD i []).length
    · -- last entry of the block
      have hinner : BlockIterator.next ⟨chunkBlock (chunks.getD i []),
          ((chunks.getD i []).getD j ([], [])).1,
          ((chunks.getD i []).getD j ([], [])).2, j⟩
          = some ⟨chunkBlock (chunks.getD i []), [], [], j + 1⟩ := by
        unfold BlockIterator.next
        rw [if_pos (by rw [hofflen]; exact hj1)]
      have hdropj : (chunks.getD i []).drop j = [(chunks.getD i []).getD j ([], [])] := by
        rw [kvDrop _ _ hj]
        have h2 : (chunks.getD i []).drop (j + 1) = [] := by
          apply List.drop_eq_nil_of_le
          omega
        rw [h2]
      by_cases hlast : chunks.length - 1 ≤ i
      · -- last block: the iterator goes invalid and the scan ends
        have hnext : SsTableIterator.next ⟨builtTable chunks, i,
            ⟨chunkBlock (chunks.getD i []),
             ((chunks.getD i []).getD j ([], [])).1,
             ((chunks.getD i []).getD j ([], [])).2, j⟩⟩
            = some ⟨builtTable chunks, i, ⟨chunkBlock (chunks.getD i []), [], [], j + 1⟩⟩ := by
          unfold SsTableIterator.next
          rw [hinner]
          show (some _).bind _ = _
          rw [optionBind_some]
          rw [if_neg (by simp [BlockIterator.isValid])]
          have hmlen : (builtTable chunks).block_metas.length = chunks.length := by
            show (metasOf 0 chunks).length = _
            exact metasOf_length 0 chunks
          rw [if_neg (by rw [hmlen]; omega)]
          rw [if_pos (by rw [hmlen]; exact hlast)]
        unfold scanLoop
        rw [if_pos hvalid, hnext]
        show (some _).bind _ = _
        rw [optionBind_some]
        rw [scanLoop_invalid m _ (by simp [SsTableIterator.isValid, BlockIterator.isValid])]
        show some _ = _
        rw [hdropj]
        have hdropchunks : chunks.drop (i + 1) = [] := by
          apply List.drop_eq_nil_of_le
          omega
        rw [hdropchunks]
        rfl
      · -- advance to the next block
        push_neg at hlast
        have hi2 : i + 1 < chunks.length := by omega
        have hcm2 : chunks.getD (i + 1) [] ∈ chunks := by
          rw [List.getD_eq_getElem _ _ hi2]
          exact List.getElem_mem _
        have hcne2 : chunks.getD (i + 1) [] ≠ [] := (hch _ hcm2).1
        have hlen2 : 0 < (chunks.getD (i + 1) []).length :=
          List.length_pos.mpr hcne2
        have hfitc2 := chunk_fit _ (hch _ hcm2).2
        have hcsf : BlockIterator.createAndSeekToFirst (chunkBlock (chunks.getD (i + 1) []))
            = some ⟨chunkBlock (chunks.getD (i + 1) []),
                ((chunks.getD (i + 1) []).getD 0 ([], [])).1,
                ((chunks.getD (i + 1) []).getD 0 ([], [])).2, 0⟩ := by
          unfold BlockIterator.createAndSeekToFirst
          rw [chunkBlock_offsets, chunkOffsets_get? _ 0 hlen2]
          show some (⟨chunkBlock (chunks.getD (i + 1) []),
              entryKey (chunkBlock (chunks.getD (i + 1) [])).data
                (dataSize ((chunks.getD (i + 1) []).take 0)),
              entryVal (chunkBlock (chunks.getD (i + 1) [])).data
                (dataSize ((chunks.getD (i + 1) []).take 0)), 0⟩ : BlockIterator) = _
          rw [entryKey_chunkBlock _ 0 hlen2 hfitc2, entryVal_chunkBlock _ 0 hlen2 hfitc2]
        have hnext : SsTableIterator.next ⟨builtTable chunks, i,
            ⟨chunkBlock (chunks.getD i []),
             ((chunks.getD i []).getD j ([], [])).1,
             ((chunks.getD i []).getD j ([], [])).2, j⟩⟩
            = some ⟨builtTable chunks, i + 1,
                ⟨chunkBlock (chunks.getD (i + 1) []),
                 ((chunks.getD (i + 1) []).getD 0 ([], [])).1,
                 ((chunks.getD (i + 1) []).getD 0 ([], [])).2, 0⟩⟩ := by
          unfold SsTableIterator.next
          rw [hinner]
          show (some _).bind _ = _
          rw [optionBind_some]
          rw [if_neg (by simp [BlockIterator.isValid])]
          have hmlen : (builtTable chunks).block_metas.length = chunks.length := by
            show (metasOf 0 chunks).length = _
            exact metasOf_length 0 chunks
          rw [if_neg (by rw [hmlen]; omega)]
          rw [if_neg (by
            rw [hmlen]
            show ¬ (chunks.length - 1 ≤ i)
            omega)]
          rw [readBlock_builtTable chunks (i + 1) hi2 hch]
          show (some _).bind _ = _
          rw [optionBind_some, hcsf]
          show (some _).bind _ = _
          rw [optionBind_some]
        unfold scanLoop
        rw [if_pos hvalid, hnext]
        show (some _).bind _ = _
        rw [optionBind_some]
        have hrec := ih (i + 1) 0 hi2 hlen2 (by
          rw [List.length_append, List.length_drop] at hlen ⊢
          have hflat2 : (chunks.drop (i + 1)).flatten
              = chunks.getD (i + 1) [] ++ (chunks.drop (i + 2)).flatten := by
            rw [dropD chunks [] (i + 1) hi2]
            simp
          rw [hflat2, List.length_append] at hlen
          have h12 : i + 1 + 1 = i + 2 := by omega
          rw [h12]
          omega)
        rw [hrec]
        show some ((chunks.getD i []).getD j ([], []) ::
            (List.drop 0 (chunks.getD (i + 1) []) ++ (List.drop (i + 1 + 1) chunks).flatten))
          = _
        rw [hdropj]
        have hflat : (chunks.drop (i + 1)).flatten
            = chunks.getD (i + 1) [] ++ (chunks.drop (i + 2)).flatten := by
          rw [dropD chunks [] (i + 1) hi2]
          simp
        rw [hflat]
        have h12 : i + 1 + 1 = i + 2 := by omega
        rw [h12, List.drop_zero]
        rfl
    · -- next entry within the same block
      have hj2 : j + 1 < (chunks.getD i []).length := by omega
      have hinner : BlockIterator.next ⟨chunkBlock (chunks.getD i []),
          ((chunks.getD i []).getD j ([], [])).1,
          ((chunks.getD i []).getD j ([], [])).2, j⟩
          = some ⟨chunkBlock (chunks.getD i []),
              ((chunks.getD i []).getD (j + 1) ([], [])).1,
              ((chunks.getD i []).getD (j + 1) ([], [])).2, j + 1⟩ := by
        unfold BlockIterator.next
        rw [if_neg (by rw [hofflen]; exact hj1)]
        rw [chunkBlock_offsets, chunkOffsets_get? _ (j + 1) hj2]
        show some (⟨chunkBlock (chunks.getD i []),
            entryKey (chunkBlock (chunks.getD i [])).data
              (dataSize ((chunks.getD i []).take (j + 1))),
            entryVal (chunkBlock (chunks.getD i [])).data
              (dataSize ((chunks.getD i []).take (j + 1))), j + 1⟩ : BlockIterator) = _
        rw [entryKey_chunkBlock _ (j + 1) hj2 hfitc, entryVal_chunkBlock _ (j + 1) hj2 hfitc]
      have hkey2 : ((chunks.getD i []).getD (j + 1) ([], [])).1 ≠ [] :=
        hkeys _ hcm _ (getD_mem _ _ hj2)
      have hnext : SsTableIterator.next ⟨builtTable chunks, i,
          ⟨chunkBlock (chunks.getD i []),
           ((chunks.getD i []).getD j ([], [])).1,
           ((chunks.getD i []).getD j ([], [])).2, j⟩⟩
          = some ⟨builtTable chunks, i,
              ⟨chunkBlock (chunks.getD i []),
               ((chunks.getD i []).getD (j + 1) ([], [])).1,
               ((chunks.getD i []).getD (j + 1) ([], [])).2, j + 1⟩⟩ := by
        unfold SsTableIterator.next
        rw [hinner]
        show (some _).bind _ = _
        rw [optionBind_some]
        rw [if_pos (by
          have hklen2 : ((chunks.getD i []).getD (j + 1) ([], [])).1.length ≠ 0 := fun h0 =>
            hkey2 (List.length_eq_zero.mp h0)
          simpa [BlockIterator.isValid, bne_iff_ne] using hklen2)]
      unfold scanLoop
      rw [if_pos hvalid, hnext]
      show (some _).bind _ = _
      rw [optionBind_some]
      have hrec := ih i (j + 1) hi hj2 (by
        rw [List.length_append, List.length_drop] at hlen ⊢
        omega)
      rw [hrec]
      show some _ = _
      rw [kvDrop _ _ hj]
      rfl


theorem fullScan_builtTable (chunks : List (List KV)) (hne : chunks ≠ [])
    (hch : ∀ c ∈ chunks, c ≠ [] ∧ chunkSize c ≤ 4193)
    (hkeys : ∀ c ∈ chunks, ∀ p ∈ c, p.1 ≠ []) :
    fullScan (builtTable chunks) chunks.flatten.length = some chunks.flatten := by
  have hlen : 0 < chunks.length := List.length_pos.mpr hne
  have hcm : chunks.getD 0 [] ∈ chunks := by
    rw [List.getD_eq_getElem _ _ hlen]
    exact List.getElem_mem _
  have hc0ne := (hch _ hcm).1
  have h0len : 0 < (chunks.getD 0 []).length := List.length_pos.mpr hc0ne
  have hflat : chunks.flatten = chunks.getD 0 [] ++ (chunks.drop 1).flatten := by
    conv_lhs => rw [← List.drop_zero chunks, dropD chunks [] 0 hlen]
    simp
  unfold fullScan SsTableIterator.createAndSeekToFirst
  have hcsf : BlockIterator.createAndSeekToFirst (chunkBlock (chunks.getD 0 []))
      = some ⟨chunkBlock (chunks.getD 0 []), ((chunks.getD 0 []).getD 0 ([], [])).1,
          ((chunks.getD 0 []).getD 0 ([], [])).2, 0⟩ := by
    unfold BlockIterator.createAndSeekToFirst
    rw [chunkBlock_offsets, chunkOffsets_get? _ 0 h0len]
    show some (⟨chunkBlock (chunks.getD 0 []),
        entryKey (chunkBlock (chunks.getD 0 [])).data (dataSize ((chunks.getD 0 []).take 0)),
        entryVal (chunkBlock (chunks.getD 0 [])).data (dataSize ((chunks.getD 0 []).take 0)),
        0⟩ : BlockIterator) = _
    rw [entryKey_chunkBlock _ 0 h0len (chunk_fit _ (hch _ hcm).2),
        entryVal_chunkBlock _ 0 h0len (chunk_fit _ (hch _ hcm).2)]
  show ((builtTable chunks).readBlock 0 >>= _) >>= _ = _
  rw [readBlock_builtTable chunks 0 hlen hch]
  show ((some (chunkBlock (chunks.getD 0 []))).bind _).bind _ = _
  rw [optionBind_some]
  show ((BlockIterator.createAndSeekToFirst (chunkBlock (chunks.getD 0 []))).bind _).bind _ = _
  rw [hcsf, optionBind_some]
  show (some _).bind _ = _
  rw [optionBind_some]
  have hscan := scanLoop_builtTable chunks hch hkeys chunks.flatten.length 0 0 hlen h0len (by
    rw [List.length_append, List.length_drop]
    rw [hflat, List.length_append]
    have h01 : 0 + 1 = 1 := rfl
    rw [h01]
    omega)
  rw [show (0 : Nat) + 1 = 1 from rfl] at hscan
  rw [hscan, List.drop_zero, ← hflat]

/-- C1 counterexample: feeding the single pair whose key is the empty byte
string produces a table whose full forward scan stops immediately (the
iterator convention treats an empty key as invalid), returning the empty
list instead of the pair that was added. -/
theorem c1_full_scan_cex :
    (buildFromPairs 16 [([], [118])]).bind (fun t => fullScan t 1) = some [] ∧
      (buildFromPairs 16 [([], [118])]).bind (fun t => fullScan t 1)
        ≠ some [([], [118])] := by
  have hfold : List.foldlM (fun (st : SsTableBuilder) (q : Bytes × Bytes) => st.add q.1 q.2)
      (builderState 16 [] []) [([], [118])] = some (builderState 16 [] [([], [118])]) := by
    decide
  have hbuild : buildFromPairs 16 [([], [118])] = some (builtTable [[([], [118])]]) := by
    unfold buildFromPairs
    rw [show SsTableBuilder.new 16 = some (builderState 16 [] []) from by decide]
    show (some _).bind _ = _
    rw [optionBind_some]
    show (List.foldlM (fun (st : SsTableBuilder) (q : Bytes × Bytes) => st.add q.1 q.2)
        (builderState 16 [] []) [([], [118])]).bind _ = _
    rw [hfold]
    show (some _).bind _ = _
    rw [optionBind_some]
    exact sstBuild_builderState 16 [] [([], [118])] (by omega)
      (fun c h => absurd h (List.not_mem_nil c)) (by decide) (by decide) (by simp)
  have hscan : fullScan (builtTable [[([], [118])]]) 1 = some [] := by
    unfold fullScan SsTableIterator.createAndSeekToFirst
    show ((builtTable [[([], [118])]]).readBlock 0 >>= _) >>= _ = _
    rw [readBlock_builtTable [[([], [118])]] 0 (by decide) (by decide)]
    show ((some (chunkBlock [([], [118])])).bind _).bind _ = _
    rw [optionBind_some]
    rw [show BlockIterator.createAndSeekToFirst (chunkBlock [([], [118])])
        = some ⟨chunkBlock [([], [118])], [], [118], 0⟩ from by decide]
    show ((some _).bind _) = _
    rw [optionBind_some]
    show (some _).bind _ = _
    rw [optionBind_some]
    exact scanLoop_invalid 1 _ (by decide)
  have hval : (buildFromPairs 16 [([], [118])]).bind (fun t => fullScan t 1) = some [] := by
    rw [hbuild]
    show (some _).bind _ = _
    rw [optionBind_some]
    exact hscan
  refine ⟨hval, ?_⟩
  rw [hval]
  simp


/-- C1 amended: for every nonempty sequence of at most a million distinct,
strictly ascending pairs with nonempty keys, each fitting an empty block
(`2 + key_len + 2 + value_len + 2 ≤ block_size`), and a block size of at most
4193 (so every encoded block stays strictly inside its 4196-byte slot), the
full forward scan of the table built from the sequence returns exactly that
sequence, in order. -/
theorem c1_full_scan_returns_pairs (bs : Nat) (pairs : List (Bytes × Bytes))
    (hbs : bs ≤ 4193) (hne : pairs ≠ []) (hcount : pairs.length ≤ 1000000)
    (hkeys : ∀ p ∈ pairs, p.1 ≠ [])
    (hfit : ∀ p ∈ pairs, 2 + p.1.length + 2 + p.2.length + 2 ≤ bs)
    (hsorted : ascending pairs = true) :
    (buildFromPairs bs pairs).bind (fun t => fullScan t pairs.length) = some pairs := by
  obtain ⟨chunks, hflat, hcne, hch, hclen, hbuild⟩ :=
    buildFromPairs_chunks bs pairs hbs hne hcount
      (fun p hp => by have h1 := hfit p hp; unfold entrySize; omega)
      hkeys
  rw [hbuild]
  show (some _).bind _ = _
  rw [optionBind_some]
  rw [← hflat]
  apply fullScan_builtTable chunks hcne
  · intro c hm
    obtain ⟨h1, h2⟩ := hch c hm
    exact ⟨h1, by omega⟩
  · intro c hm p hp
    apply hkeys
    rw [← hflat]
    exact List.mem_flatten.mpr ⟨c, hm, hp⟩

theorem c1_full_scan_returns_pairs_witness :
    (buildFromPairs 16 [([97], [49]), ([99], [51])]).bind (fun t => fullScan t 2)
      = some [([97], [49]), ([99], [51])] :=
  c1_full_scan_returns_pairs 16 [([97], [49]), ([99], [51])] (by omega) (by decide)
    (by decide) (by decide) (by decide) (by decide)


/-! ## Re-opening a built table (meta codec round trip) -/

theorem read32_be32 (x : Nat) (l : Bytes) (hx : x < 2 ^ 32) : read32 (be32 x ++ l) 0 = x := by
  unfold read32 be32
  simp only [List.cons_append, List.getD_cons_zero, List.getD_cons_succ]
  have e1 : (2 : Nat) ^ 24 = 16777216 := by norm_num
  have e2 : (2 : Nat) ^ 16 = 65536 := by norm_num
  have e3 : (2 : Nat) ^ 8 = 256 := by norm_num
  have e4 : (2 : Nat) ^ 32 = 4294967296 := by norm_num
  rw [e1, e2, e3]
  rw [e4] at hx
  omega

theorem decode_encode_metas (metas : List BlockMeta)
    (h : ∀ m ∈ metas, m.offset < 2 ^ 32 ∧ m.key_len = m.first_key.length ∧
      m.first_key.length < 65536) :
    BlockMeta.decodeLoop (BlockMeta.encodeBlockMeta metas) = some metas := by
  induction metas with
  | nil =>
    rw [BlockMeta.decodeLoop]
    rw [dif_pos (show BlockMeta.encodeBlockMeta [] = [] from rfl)]
  | cons m rest ih =>
    obtain ⟨ho, hk, hlen⟩ := h m (by simp)
    have hbuf : BlockMeta.encodeBlockMeta (m :: rest)
        = be32 m.offset ++ (be16 m.key_len ++ (m.first_key ++ BlockMeta.encodeBlockMeta rest))
        := by
      simp [BlockMeta.encodeBlockMeta, List.append_assoc]
    have hlen4 : (be32 m.offset).length = 4 := by simp [be32]
    have hlen2 : (be16 m.key_len).length = 2 := by simp [be16]
    have hbl : (BlockMeta.encodeBlockMeta (m :: rest)).length
        = 6 + m.first_key.length + (BlockMeta.encodeBlockMeta rest).length := by
      rw [hbuf]
      simp [be32, be16]
      omega
    have hr32 : read32 (BlockMeta.encodeBlockMeta (m :: rest)) 0 = m.offset := by
      rw [hbuf]
      exact read32_be32 _ _ ho
    have hr16 : read16 (BlockMeta.encodeBlockMeta (m :: rest)) 4 = m.key_len := by
      rw [hbuf]
      rw [show (4 : Nat) = (be32 m.offset).length + 0 from by rw [hlen4]]
      rw [read16_shift]
      rw [show (0 : Nat) = 0 from rfl]
      exact read16_be16 _ _ (by omega)
    have hfk : ((BlockMeta.encodeBlockMeta (m :: rest)).drop 6).take m.key_len
        = m.first_key := by
      have hb2 : BlockMeta.encodeBlockMeta (m :: rest)
          = (be32 m.offset ++ be16 m.key_len) ++
            (m.first_key ++ BlockMeta.encodeBlockMeta rest) := by
        rw [hbuf]
        simp [List.append_assoc]
      rw [hb2]
      rw [show (6 : Nat) = (be32 m.offset ++ be16 m.key_len).length from by
        rw [List.length_append, hlen4, hlen2]]
      rw [drop_append_length]
      rw [hk]
      exact take_append_length _ _
    have hrest : (BlockMeta.encodeBlockMeta (m :: rest)).drop (6 + m.key_len)
        = BlockMeta.encodeBlockMeta rest := by
      have hb3 : BlockMeta.encodeBlockMeta (m :: rest)
          = ((be32 m.offset ++ be16 m.key_len) ++ m.first_key) ++
            BlockMeta.encodeBlockMeta rest := by
        rw [hbuf]
        simp [List.append_assoc]
      rw [hb3]
      rw [show 6 + m.key_len = ((be32 m.offset ++ be16 m.key_len) ++ m.first_key).length from by
        rw [List.length_append, List.length_append, hlen4, hlen2, hk]]
      rw [drop_append_length]
    rw [BlockMeta.decodeLoop]
    rw [dif_neg (by
      rw [hbuf]
      simp [be32])]
    rw [dif_neg (by rw [hbl]; omega)]
    simp only [hr16, hr32]
    rw [dif_neg (by rw [hbl]; omega)]
    rw [hrest, ih (fun m2 hm2 => h m2 (by simp [hm2])), hfk]

theorem headKey_length_le (c : List KV) (h : c ≠ []) :
    (headKeyD c).length + 6 ≤ chunkSize c := by
  cases c with
  | nil => exact absurd rfl h
  | cons p r =>
    rw [chunkSize_cons]
    simp only [headKeyD]
    unfold entrySize
    omega

theorem metasOf_wf (chunks : List (List KV)) (n : Nat)
    (hch : ∀ c ∈ chunks, c ≠ [] ∧ chunkSize c ≤ 4193)
    (hb : n + chunks.length ≤ 1000001) :
    ∀ m ∈ metasOf n chunks, m.offset < 2 ^ 32 ∧ m.key_len = m.first_key.length ∧
      m.first_key.length < 65536 := by
  induction chunks generalizing n with
  | nil => simp [metasOf]
  | cons c rest ih =>
    intro m hm
    simp only [metasOf, List.mem_cons] at hm
    obtain ⟨hcne, hcs⟩ := hch c (by simp)
    have hkl := headKey_length_le c hcne
    rcases hm with h1 | h1
    · subst h1
      simp only
      have e4 : (2 : Nat) ^ 32 = 4294967296 := by norm_num
      rw [e4]
      simp only [List.length_cons] at hb
      refine ⟨by omega, ?_, by omega⟩
      rw [Nat.mod_eq_of_lt (by omega)]
    · exact ih (n + 1) (fun c2 h2 => hch c2 (by simp [h2]))
        (by simp only [List.length_cons] at hb; omega) m h1

theorem openTable_builtTable (chunks : List (List KV))
    (hch : ∀ c ∈ chunks, c ≠ [] ∧ chunkSize c ≤ 4193)
    (hclen : chunks.length ≤ 1000001) :
    SsTable.openTable (builtTable chunks).file = some (builtTable chunks) := by
  have hslen : (slotsOf chunks).length = 4196 * chunks.length :=
    slotsOf_length chunks (fun c2 hm => (hch c2 hm).2)
  have hfile : (builtTable chunks).file = (slotsOf chunks ++
      BlockMeta.encodeBlockMeta (metasOf 0 chunks)) ++ be32 (4196 * chunks.length) := by
    show slotsOf chunks ++ BlockMeta.encodeBlockMeta (metasOf 0 chunks)
        ++ be32 (4196 * chunks.length) = _
    rfl
  have hflen : (builtTable chunks).file.length = 4196 * chunks.length
      + (BlockMeta.encodeBlockMeta (metasOf 0 chunks)).length + 4 := by
    rw [hfile]
    simp [be32, hslen]
    omega
  have hbmo : 4196 * chunks.length < 2 ^ 32 := by
    have e4 : (2 : Nat) ^ 32 = 4294967296 := by norm_num
    rw [e4]
    omega
  unfold SsTable.openTable
  have hfoot : fileRead (builtTable chunks).file ((builtTable chunks).file.length - 4) 4
      = some (be32 (4196 * chunks.length)) := by
    unfold fileRead
    rw [if_pos (by omega)]
    rw [hfile]
    rw [show (slotsOf chunks ++ BlockMeta.encodeBlockMeta (metasOf 0 chunks)
        ++ be32 (4196 * chunks.length)).length - 4
        = (slotsOf chunks ++ BlockMeta.encodeBlockMeta (metasOf 0 chunks)).length from by
      simp only [List.length_append]
      simp [be32]]
    rw [drop_append_length]
    rw [show (4 : Nat) = (be32 (4196 * chunks.length)).length from by simp [be32]]
    rw [List.take_length]
  rw [hfoot]
  show (some _).bind _ = _
  rw [optionBind_some]
  rw [show read32 (be32 (4196 * chunks.length)) 0 = 4196 * chunks.length from by
    rw [show be32 (4196 * chunks.length) = be32 (4196 * chunks.length) ++ [] from by simp]
    exact read32_be32 _ _ hbmo]
  rw [if_neg (by omega)]
  have hmeta : fileRead (builtTable chunks).file (4196 * chunks.length)
      ((builtTable chunks).file.length - 4 - 4196 * chunks.length)
      = some (BlockMeta.encodeBlockMeta (metasOf 0 chunks)) := by
    unfold fileRead
    rw [if_pos (by omega)]
    rw [hfile]
    rw [show (slotsOf chunks ++ BlockMeta.encodeBlockMeta (metasOf 0 chunks)
        ++ be32 (4196 * chunks.length)).length - 4 - 4196 * chunks.length
        = (BlockMeta.encodeBlockMeta (metasOf 0 chunks)).length from by
      simp only [List.length_append]
      simp [be32, hslen]]
    rw [show (4196 * chunks.length) = (slotsOf chunks).length from hslen.symm]
    rw [List.append_assoc, drop_append_length]
    rw [take_append_length]
  rw [hmeta]
  show (some _).bind _ = _
  rw [optionBind_some]
  have hdec : BlockMeta.decodeBlockMeta (BlockMeta.encodeBlockMeta (metasOf 0 chunks))
      = some (metasOf 0 chunks) := by
    unfold BlockMeta.decodeBlockMeta
    exact decode_encode_metas _ (metasOf_wf chunks 0 hch (by omega))
  rw [hdec]
  show (some _).bind _ = _
  rw [optionBind_some]
  rfl

/-- C10: re-opening the byte image written by `build` recovers the same
`block_metas` and `block_meta_offset` (indeed the same table value): the meta
codec and the u32 big-endian footer round-trip. -/
theorem c10_reopen_built_table (bs : Nat) (pairs : List (Bytes × Bytes)) (t : SsTable)
    (hbs : bs ≤ 4193) (hne : pairs ≠ []) (hcount : pairs.length ≤ 1000000)
    (hkeys : ∀ p ∈ pairs, p.1 ≠ [])
    (hfit : ∀ p ∈ pairs, 2 + p.1.length + 2 + p.2.length + 2 ≤ bs)
    (hb : buildFromPairs bs pairs = some t) :
    SsTable.openTable t.file = some t := by
  obtain ⟨chunks, hflat, hcne, hch, hclen, hbuild⟩ :=
    buildFromPairs_chunks bs pairs hbs hne hcount
      (fun p hp => by have h1 := hfit p hp; unfold entrySize; omega)
      hkeys
  rw [hb] at hbuild
  have ht : t = builtTable chunks := by
    injection hbuild
  subst ht
  exact openTable_builtTable chunks
    (fun c hm => ⟨(hch c hm).1, by have := (hch c hm).2; omega⟩) hclen

theorem c10_reopen_built_table_witness :
    SsTable.openTable ((buildFromPairs 16 [([97], [49]), ([99], [51])]).getD
        ⟨[], [], 0⟩).file
      = some ((buildFromPairs 16 [([97], [49]), ([99], [51])]).getD ⟨[], [], 0⟩) := by
  have hb : buildFromPairs 16 [([97], [49]), ([99], [51])]
      = some ((buildFromPairs 16 [([97], [49]), ([99], [51])]).getD ⟨[], [], 0⟩) := by
    have hfold : List.foldlM (fun (st : SsTableBuilder) (q : Bytes × Bytes) => st.add q.1 q.2)
        (builderState 16 [] []) [([97], [49]), ([99], [51])]
        = some (builderState 16 [] [([97], [49]), ([99], [51])]) := by decide
    have h1 : buildFromPairs 16 [([97], [49]), ([99], [51])]
        = some (builtTable [[([97], [49]), ([99], [51])]]) := by
      unfold buildFromPairs
      rw [show SsTableBuilder.new 16 = some (builderState 16 [] []) from by decide]
      show (some _).bind _ = _
      rw [optionBind_some]
      show (List.foldlM (fun (st : SsTableBuilder) (q : Bytes × Bytes) => st.add q.1 q.2)
          (builderState 16 [] []) [([97], [49]), ([99], [51])]).bind _ = _
      rw [hfold]
      show (some _).bind _ = _
      rw [optionBind_some]
      exact sstBuild_builderState 16 [] [([97], [49]), ([99], [51])] (by omega)
        (fun c h => absurd h (List.not_mem_nil c)) (by decide) (by decide) (by simp)
    rw [h1]
    rfl
  exact c10_reopen_built_table 16 [([97], [49]), ([99], [51])] _ (by omega) (by decide)
    (by decide) (by decide) (by decide) hb

end MiniLsm

namespace MiniLsm

/-! ## Generic list lemmas for the table-level seek proof -/

theorem getD_mem2 {α : Type} (l : List α) (d : α) (j : Nat) (h : j < l.length) :
    l.getD j d ∈ l := by
  rw [List.getD_eq_getElem _ _ h]
  exact List.getElem_mem _

theorem getD_map2 {α β : Type} (l : List α) (f : α → β) (d : α) (d2 : β) (j : Nat)
    (h : j < l.length) : (l.map f).getD j d2 = f (l.getD j d) := by
  rw [List.getD_eq_getElem _ _ (by simpa using h), List.getD_eq_getElem _ _ h]
  simp

theorem get?_getD {α : Type} (l : List α) (j : Nat) (x d : α) (h : l.get? j = some x) :
    l.getD j d = x := by
  rw [List.getD_eq_getElem?_getD, ← List.get?_eq_getElem?, h]
  rfl

theorem getD_append_left2 {α : Type} (a l : List α) (n : Nat) (d : α) (h : n < a.length) :
    (a ++ l).getD n d = a.getD n d := by
  rw [List.getD_eq_getElem _ _ (by rw [List.length_append]; omega),
      List.getD_eq_getElem _ _ h]
  exact List.getElem_append_left h

theorem find?_cons_true {α : Type} (p : α → Bool) (a : α) (l : List α) (h : p a = true) :
    (a :: l).find? p = some a := by
  simp [List.find?, h]

theorem find?_cons_false {α : Type} (p : α → Bool) (a : α) (l : List α) (h : p a = false) :
    (a :: l).find? p = l.find? p := by
  simp [List.find?, h]

theorem find?_append_none {α : Type} (p : α → Bool) (A B : List α)
    (h : ∀ a ∈ A, p a = false) : (A ++ B).find? p = B.find? p := by
  induction A with
  | nil => simp
  | cons x A ih =>
    rw [List.cons_append, find?_cons_false p x _ (h x (by simp))]
    exact ih (fun a ha => h a (by simp [ha]))

theorem find?_none_of {α : Type} (p : α → Bool) (l : List α)
    (h : ∀ a ∈ l, p a = false) : l.find? p = none := by
  induction l with
  | nil => rfl
  | cons x l ih =>
    rw [find?_cons_false p x l (h x (by simp))]
    exact ih (fun a ha => h a (by simp [ha]))

theorem find?_of_getD {α : Type} (p : α → Bool) (l : List α) (d : α) (i : Nat)
    (hi : i < l.length) (hlt : ∀ j, j < i → p (l.getD j d) = false)
    (hp : p (l.getD i d) = true) : l.find? p = some (l.getD i d) := by
  induction l generalizing i with
  | nil => simp at hi
  | cons x l ih =>
    cases i with
    | zero =>
      rw [List.getD_cons_zero] at hp ⊢
      exact find?_cons_true p x l hp
    | succ m =>
      have hx : p x = false := by
        have h0 := hlt 0 (by omega)
        rwa [List.getD_cons_zero] at h0
      rw [List.getD_cons_succ] at hp ⊢
      rw [find?_cons_false p x l hx]
      exact ih m (by simpa using hi)
        (fun j hj => by
          have := hlt (j + 1) (by omega)
          rwa [List.getD_cons_succ] at this) hp

/-! ## firstGe / firstGt characterizations -/

theorem firstGe_le (keys : List Bytes) (k : Bytes) : firstGe keys k ≤ keys.length := by
  induction keys with
  | nil => simp [firstGe]
  | cons a rest ih =>
    show (if ltBytes a k then firstGe rest k + 1 else 0) ≤ rest.length + 1
    by_cases hb : ltBytes a k = true
    · rw [if_pos hb]; omega
    · rw [if_neg hb]; omega

theorem firstGe_lt (keys : List Bytes) (k : Bytes) (j : Nat) (hj : j < firstGe keys k) :
    ltBytes (keys.getD j []) k = true := by
  induction keys generalizing j with
  | nil => simp [firstGe] at hj
  | cons a rest ih =>
    have hj2 : j < (if ltBytes a k then firstGe rest k + 1 else 0) := hj
    by_cases hb : ltBytes a k = true
    · rw [if_pos hb] at hj2
      cases j with
      | zero => rw [List.getD_cons_zero]; exact hb
      | succ m =>
        rw [List.getD_cons_succ]
        exact ih m (by omega)
    · rw [if_neg hb] at hj2
      omega

theorem firstGe_ge (keys : List Bytes) (k : Bytes) (h : firstGe keys k < keys.length) :
    ltBytes (keys.getD (firstGe keys k) []) k = false := by
  induction keys with
  | nil => simp [firstGe] at h
  | cons a rest ih =>
    show ltBytes ((a :: rest).getD (if ltBytes a k then firstGe rest k + 1 else 0) []) k = false
    by_cases hb : ltBytes a k = true
    · rw [if_pos hb, List.getD_cons_succ]
      apply ih
      have h2 : (if ltBytes a k then firstGe rest k + 1 else 0) < rest.length + 1 := h
      rw [if_pos hb] at h2
      omega
    · rw [if_neg hb, List.getD_cons_zero]
      exact Bool.not_eq_true _ ▸ hb

theorem firstGt_le (keys : List Bytes) (k : Bytes) : firstGt keys k ≤ keys.length := by
  induction keys with
  | nil => simp [firstGt]
  | cons a rest ih =>
    show (if ltBytes k a then 0 else firstGt rest k + 1) ≤ rest.length + 1
    by_cases hb : ltBytes k a = true
    · rw [if_pos hb]; omega
    · rw [if_neg hb]; omega

theorem firstGt_lt (keys : List Bytes) (k : Bytes) (j : Nat) (hj : j < firstGt keys k) :
    ltBytes k (keys.getD j []) = false := by
  induction keys generalizing j with
  | nil => simp [firstGt] at hj
  | cons a rest ih =>
    have hj2 : j < (if ltBytes k a then 0 else firstGt rest k + 1) := hj
    by_cases hb : ltBytes k a = true
    · rw [if_pos hb] at hj2
      omega
    · rw [if_neg hb] at hj2
      cases j with
      | zero =>
        rw [List.getD_cons_zero]
        exact Bool.not_eq_true _ ▸ hb
      | succ m =>
        rw [List.getD_cons_succ]
        exact ih m (by omega)

theorem firstGt_ge (keys : List Bytes) (k : Bytes) (h : firstGt keys k < keys.length) :
    ltBytes k (keys.getD (firstGt keys k) []) = true := by
  induction keys with
  | nil => simp [firstGt] at h
  | cons a rest ih =>
    show ltBytes k ((a :: rest).getD (if ltBytes k a then 0 else firstGt rest k + 1) []) = true
    by_cases hb : ltBytes k a = true
    · rw [if_pos hb, List.getD_cons_zero]
      exact hb
    · rw [if_neg hb, List.getD_cons_succ]
      apply ih
      have h2 : (if ltBytes k a then 0 else firstGt rest k + 1) < rest.length + 1 := h
      rw [if_neg hb] at h2
      omega

end MiniLsm

namespace MiniLsm

/-! ## Sortedness of concatenations and flattenings -/

theorem ascKeys_head_mem (a : Bytes) (rest : List Bytes) (h : ascKeys (a :: rest) = true) :
    ∀ b ∈ rest, ltBytes a b = true := by
  induction rest generalizing a with
  | nil => intro b hb; simp at hb
  | cons c r ih =>
    have h2 : (ltBytes a c && ascKeys (c :: r)) = true := h
    rw [Bool.and_eq_true] at h2
    obtain ⟨hac, hcr⟩ := h2
    intro b hb
    rcases List.mem_cons.mp hb with hbc | hbr
    · rw [hbc]; exact hac
    · exact ltBytes_trans hac (ih c hcr b hbr)

theorem ascKeys_cons_of (a : Bytes) (rest : List Bytes) (h1 : ascKeys rest = true)
    (h2 : ∀ b ∈ rest, ltBytes a b = true) : ascKeys (a :: rest) = true := by
  cases rest with
  | nil => rfl
  | cons b r =>
    show (ltBytes a b && ascKeys (b :: r)) = true
    rw [h2 b (by simp), h1]
    rfl

theorem ascKeys_append (A B : List Bytes) (h : ascKeys (A ++ B) = true) :
    ascKeys A = true ∧ ascKeys B = true ∧ ∀ a ∈ A, ∀ b ∈ B, ltBytes a b = true := by
  induction A with
  | nil => exact ⟨rfl, h, by intro a ha; simp at ha⟩
  | cons x A ih =>
    rw [List.cons_append] at h
    have hx := ascKeys_head_mem x (A ++ B) h
    have htail := (ascKeys_head x (A ++ B) h).1
    obtain ⟨hA, hB, hcross⟩ := ih htail
    refine ⟨ascKeys_cons_of x A hA (fun b hb => hx b (by simp [hb])), hB, ?_⟩
    intro a ha b hb
    rcases List.mem_cons.mp ha with hax | haA
    · rw [hax]; exact hx b (by simp [hb])
    · exact hcross a haA b hb

theorem ascKeys_flatten (L : List (List Bytes)) (h : ascKeys L.flatten = true) :
    (∀ c ∈ L, ascKeys c = true) ∧
      ∀ i j, i < j → j < L.length →
        ∀ a ∈ L.getD i [], ∀ b ∈ L.getD j [], ltBytes a b = true := by
  induction L with
  | nil => exact ⟨by intro c hc; simp at hc, by intro i j hij hj; simp at hj⟩
  | cons c L ih =>
    rw [List.flatten_cons] at h
    obtain ⟨hc, hrest, hcross⟩ := ascKeys_append c L.flatten h
    obtain ⟨hall, hidx⟩ := ih hrest
    constructor
    · intro c2 hc2
      rcases List.mem_cons.mp hc2 with h1 | h1
      · rw [h1]; exact hc
      · exact hall c2 h1
    · intro i j hij hj a ha b hb
      cases i with
      | zero =>
        cases j with
        | zero => omega
        | succ m =>
          rw [List.getD_cons_zero] at ha
          rw [List.getD_cons_succ] at hb
          have hm : m < L.length := by simpa using hj
          exact hcross a ha b (List.mem_flatten.mpr ⟨L.getD m [], getD_mem2 L [] m hm, hb⟩)
      | succ i2 =>
        cases j with
        | zero => omega
        | succ m =>
          rw [List.getD_cons_succ] at ha hb
          exact hidx i2 m (by omega) (by simpa using hj) a ha b hb

theorem ascending_ascKeys (l : List KV) (h : ascending l = true) :
    ascKeys (l.map Prod.fst) = true := by
  induction l with
  | nil => rfl
  | cons p l ih =>
    cases l with
    | nil => rfl
    | cons q r =>
      have h2 : (ltBytes p.1 q.1 && ascending (q :: r)) = true := h
      rw [Bool.and_eq_true] at h2
      obtain ⟨hpq, hqr⟩ := h2
      show (ltBytes p.1 q.1 && ascKeys (q.1 :: r.map Prod.fst)) = true
      have h3 := ih hqr
      rw [List.map_cons] at h3
      rw [hpq, h3]
      rfl

theorem map_flatten2 {α β : Type} (f : α → β) (L : List (List α)) :
    L.flatten.map f = (L.map (fun c => c.map f)).flatten := by
  induction L with
  | nil => rfl
  | cons c L ih => simp [ih]

theorem flatten_decomp {α : Type} (L : List (List α)) (m : Nat) (h : m < L.length) :
    L.flatten = (L.take m).flatten ++ L.getD m [] ++ (L.drop (m + 1)).flatten := by
  conv_lhs => rw [← List.take_append_drop m L]
  rw [List.flatten_append, dropD L [] m h, List.flatten_cons, List.append_assoc]

theorem mem_flatten_take {α : Type} (L : List (List α)) (m : Nat) (a : α)
    (h : a ∈ (L.take m).flatten) : ∃ j, j < m ∧ j < L.length ∧ a ∈ L.getD j [] := by
  obtain ⟨c, hc, hac⟩ := List.mem_flatten.mp h
  obtain ⟨j, hj, hcj⟩ := List.getElem_of_mem hc
  have hjm : j < m := by rw [List.length_take] at hj; omega
  have hjL : j < L.length := by rw [List.length_take] at hj; omega
  refine ⟨j, hjm, hjL, ?_⟩
  rw [List.getD_eq_getElem _ _ hjL]
  rw [List.getElem_take] at hcj
  rw [hcj]
  exact hac

/-! ## First keys of chunks -/

theorem headKeyD_getD (c : List KV) (h : c ≠ []) : headKeyD c = (c.getD 0 ([], [])).1 := by
  cases c with
  | nil => exact absurd rfl h
  | cons p r => rfl

theorem headKeyD_mem (c : List KV) (h : c ≠ []) : headKeyD c ∈ c.map Prod.fst := by
  cases c with
  | nil => exact absurd rfl h
  | cons p r => show p.1 ∈ _; simp

theorem metasOf_firstKey (chunks : List (List KV)) (j : Nat) (h : j < chunks.length) :
    ((metasOf 0 chunks).getD j ⟨0, 0, []⟩).first_key = headKeyD (chunks.getD j []) := by
  rw [get?_getD _ _ _ _ (metasOf_getElem? chunks 0 j h)]

end MiniLsm

namespace MiniLsm

/-! ## Correctness of the meta-level binary search -/

theorem metaSeekLoop_spec (metas : List BlockMeta) (k : Bytes) (j0 : Nat)
    (hsort : ∀ i j, i < j → j < metas.length →
      ltBytes ((metas.getD i ⟨0, 0, []⟩).first_key)
        ((metas.getD j ⟨0, 0, []⟩).first_key) = true)
    (hj0 : j0 ≤ metas.length)
    (hlt : ∀ j, j < j0 → ltBytes k ((metas.getD j ⟨0, 0, []⟩).first_key) = false)
    (hge : j0 < metas.length → ltBytes k ((metas.getD j0 ⟨0, 0, []⟩).first_key) = true) :
    ∀ n low high, high - low ≤ n → low ≤ j0 → j0 ≤ high → high ≤ metas.length →
      SsTableIterator.metaSeekLoop metas k low high = j0 := by
  intro n
  induction n with
  | zero =>
    intro low high h1 h2 h3 h4
    have hlh : ¬ low < high := by omega
    rw [SsTableIterator.metaSeekLoop, dif_neg hlh]
    omega
  | succ m ih =>
    intro low high h1 h2 h3 h4
    by_cases hlh : low < high
    · rw [SsTableIterator.metaSeekLoop, dif_pos hlh]
      simp only
      have hmlt : (low + high) / 2 < metas.length := by omega
      cases hb : ltBytes k ((metas.getD ((low + high) / 2) ⟨0, 0, []⟩).first_key) with
      | true =>
        rw [if_pos rfl]
        have hle : j0 ≤ (low + high) / 2 := by
          by_contra hc
          push_neg at hc
          have := hlt ((low + high) / 2) hc
          rw [this] at hb
          exact absurd hb (by simp)
        exact ih low ((low + high) / 2) (by omega) h2 hle (by omega)
      | false =>
        rw [if_neg (by simp : ¬ (false = true))]
        have hgt : (low + high) / 2 < j0 := by
          by_contra hc
          push_neg at hc
          have hj0m : j0 < metas.length := by omega
          have hk := hge hj0m
          rcases Nat.lt_or_ge j0 ((low + high) / 2) with hlt2 | hge2
          · have hs := hsort j0 ((low + high) / 2) hlt2 hmlt
            have htr := ltBytes_trans hk hs
            rw [htr] at hb
            exact absurd hb (by simp)
          · have heq : j0 = (low + high) / 2 := by omega
            rw [← heq] at hb
            rw [hk] at hb
            exact absurd hb (by simp)
        exact ih ((low + high) / 2 + 1) high (by omega) (by omega) h3 h4
    · rw [SsTableIterator.metaSeekLoop, dif_neg hlh]
      omega

/-- `SsTableIterator.seekToKey` with the binary-search result abstracted. -/
theorem seekToKey_low (it : SsTableIterator) (k : Bytes) (j0 : Nat)
    (hlow : SsTableIterator.metaSeekLoop it.table.block_metas k 0
      it.table.block_metas.length = j0) :
    it.seekToKey k =
      (if j0 = 0 then it.seekToFirst
       else
        (it.table.readBlock (j0 - 1)).bind fun block =>
          if (BlockIterator.createAndSeekToKey block k).isValid then
            some { it with block_idx := j0 - 1,
                           cur_block_iterator := BlockIterator.createAndSeekToKey block k }
          else if it.table.block_metas.length ≤ j0 then
            some { it with block_idx := j0 - 1,
                           cur_block_iterator := BlockIterator.createAndSeekToKey block k }
          else
            (it.table.readBlock j0).bind fun block2 =>
              (BlockIterator.createAndSeekToFirst block2).bind fun bit =>
                some { it with block_idx := j0 - 1 + 1, cur_block_iterator := bit }) := by
  subst hlow
  rfl

/-- `BlockIterator::create_and_seek_to_first` on the block of a nonempty,
fitting chunk loads the chunk's first pair. -/
theorem createAndSeekToFirst_chunkBlock (c : List KV) (hne : c ≠ [])
    (hcs : chunkSize c ≤ 4193) :
    BlockIterator.createAndSeekToFirst (chunkBlock c)
      = some ⟨chunkBlock c, (c.getD 0 ([], [])).1, (c.getD 0 ([], [])).2, 0⟩ := by
  have h0len : 0 < c.length := List.length_pos.mpr hne
  unfold BlockIterator.createAndSeekToFirst
  rw [chunkBlock_offsets, chunkOffsets_get? _ 0 h0len]
  show some (⟨chunkBlock c, entryKey (chunkBlock c).data (dataSize (c.take 0)),
      entryVal (chunkBlock c).data (dataSize (c.take 0)), 0⟩ : BlockIterator) = _
  rw [entryKey_chunkBlock _ 0 h0len (chunk_fit _ hcs),
      entryVal_chunkBlock _ 0 h0len (chunk_fit _ hcs)]

theorem key_valid (b : Bytes) (h : b ≠ []) : (b.length != 0) = true := by
  have h2 : b.length ≠ 0 := fun hc => h (List.eq_nil_of_length_eq_zero hc)
  simp [h2]

end MiniLsm

namespace MiniLsm

/-- `SsTableIterator::seek_to_key` on the table built from ascending chunks of
nonempty-key pairs lands on the first stored pair whose key is `≥ k` (the one
a linear scan would select), and comes back invalid when no such pair
exists. -/
theorem seekToKey_builtTable (chunks : List (List KV)) (k : Bytes)
    (hne : chunks ≠ [])
    (hch : ∀ c ∈ chunks, c ≠ [] ∧ chunkSize c ≤ 4193)
    (hkeys : ∀ c ∈ chunks, ∀ p ∈ c, p.1 ≠ [])
    (hsorted : ascKeys (chunks.flatten.map Prod.fst) = true)
    (it0 : SsTableIterator) (ht : it0.table = builtTable chunks) :
    (it0.seekToKey k).map (fun r => (r.isValid, r.key, r.value))
      = some (match chunks.flatten.find? (fun p => ! ltBytes p.1 k) with
              | some p => (true, p.1, p.2)
              | none => (false, ([] : Bytes), ([] : Bytes))) := by
  have hlen0 : 0 < chunks.length := List.length_pos.mpr hne
  rw [map_flatten2 (@Prod.fst Bytes Bytes) chunks] at hsorted
  obtain ⟨hinner, hcross⟩ := ascKeys_flatten _ hsorted
  have hKCget : ∀ j, j < chunks.length →
      (chunks.map (fun c => c.map Prod.fst)).getD j [] = (chunks.getD j []).map Prod.fst :=
    fun j hj => getD_map2 chunks _ [] [] j hj
  have hHget : ∀ j, j < chunks.length →
      (chunks.map headKeyD).getD j [] = headKeyD (chunks.getD j []) :=
    fun j hj => getD_map2 chunks headKeyD [] [] j hj
  have hj0le : firstGt (chunks.map headKeyD) k ≤ chunks.length := by
    have h2 := firstGt_le (chunks.map headKeyD) k
    rwa [List.length_map] at h2
  have hj0lt : ∀ j, j < firstGt (chunks.map headKeyD) k →
      ltBytes k (headKeyD (chunks.getD j [])) = false := by
    intro j hj
    have h1 := firstGt_lt (chunks.map headKeyD) k j hj
    rwa [hHget j (by omega)] at h1
  have hj0ge : firstGt (chunks.map headKeyD) k < chunks.length →
      ltBytes k (headKeyD (chunks.getD (firstGt (chunks.map headKeyD) k) [])) = true := by
    intro hlt
    have h1 := firstGt_ge (chunks.map headKeyD) k (by rwa [List.length_map])
    rwa [hHget _ hlt] at h1
  set j0 := firstGt (chunks.map headKeyD) k with hj0def
  clear_value j0
  have hcrossC : ∀ i j, i < j → j < chunks.length →
      ∀ a ∈ (chunks.getD i []).map Prod.fst, ∀ b ∈ (chunks.getD j []).map Prod.fst,
        ltBytes a b = true := by
    intro i j hij hj a ha b hb
    apply hcross i j hij (by rwa [List.length_map])
    · rw [hKCget i (by omega)]
      exact ha
    · rw [hKCget j hj]
      exact hb
  have hascC : ∀ j, j < chunks.length → ascKeys ((chunks.getD j []).map Prod.fst) = true := by
    intro j hj
    apply hinner
    rw [← hKCget j hj]
    exact getD_mem2 _ [] j (by rwa [List.length_map])
  have hmlen : (metasOf 0 chunks).length = chunks.length := metasOf_length 0 chunks
  have hmsort : ∀ i j, i < j → j < (metasOf 0 chunks).length →
      ltBytes ((metasOf 0 chunks).getD i ⟨0, 0, []⟩).first_key
        ((metasOf 0 chunks).getD j ⟨0, 0, []⟩).first_key = true := by
    intro i j hij hj
    rw [hmlen] at hj
    rw [metasOf_firstKey chunks i (by omega), metasOf_firstKey chunks j hj]
    exact hcrossC i j hij hj _ (headKeyD_mem _ (hch _ (getD_mem2 chunks [] i (by omega))).1)
      _ (headKeyD_mem _ (hch _ (getD_mem2 chunks [] j hj)).1)
  have hlow : SsTableIterator.metaSeekLoop (metasOf 0 chunks) k 0
      (metasOf 0 chunks).length = j0 :=
    metaSeekLoop_spec (metasOf 0 chunks) k j0 hmsort (by omega)
      (fun j hj => by rw [metasOf_firstKey chunks j (by omega)]; exact hj0lt j hj)
      (fun h => by rw [metasOf_firstKey chunks j0 (by omega)]; exact hj0ge (by omega))
      (metasOf 0 chunks).length 0 (metasOf 0 chunks).length (by omega) (by omega)
      (by omega) (by omega)
  rw [seekToKey_low it0 k j0 (by rw [ht]; exact hlow)]
  by_cases hj00 : j0 = 0
  · -- all first keys exceed the probe: seek to the very first entry
    rw [if_pos hj00]
    unfold SsTableIterator.seekToFirst
    rw [ht]
    have hc0 : chunks.getD 0 [] ∈ chunks := getD_mem2 chunks [] 0 hlen0
    obtain ⟨hc0ne, hc0s⟩ := hch _ hc0
    rw [readBlock_builtTable chunks 0 hlen0 hch]
    show ((some (chunkBlock (chunks.getD 0 []))).bind _).map _ = _
    rw [optionBind_some]
    show ((BlockIterator.createAndSeekToFirst (chunkBlock (chunks.getD 0 []))).bind _).map _ = _
    rw [createAndSeekToFirst_chunkBlock _ hc0ne hc0s, optionBind_some]
    have hk0 : ((chunks.getD 0 []).getD 0 ([], [])).1 ≠ [] :=
      hkeys _ hc0 _ (getD_mem _ 0 (List.length_pos.mpr hc0ne))
    rw [hj00] at hj0ge
    have hhead := hj0ge hlen0
    rw [headKeyD_getD _ hc0ne] at hhead
    have hdec : chunks.flatten = chunks.getD 0 [] ++ (chunks.drop 1).flatten := by
      have h2 := flatten_decomp chunks 0 hlen0
      simpa using h2
    have hfind : chunks.flatten.find? (fun p => ! ltBytes p.1 k)
        = some ((chunks.getD 0 []).getD 0 ([], [])) := by
      rw [hdec]
      have h0 : (chunks.getD 0 [] ++ (chunks.drop 1).flatten).getD 0 ([], [])
          = (chunks.getD 0 []).getD 0 ([], []) :=
        getD_append_left2 _ _ 0 _ (List.length_pos.mpr hc0ne)
      have hfg := find?_of_getD (fun p => ! ltBytes p.1 k)
        (chunks.getD 0 [] ++ (chunks.drop 1).flatten) ([], []) 0
        (by rw [List.length_append]; have h3 := List.length_pos.mpr hc0ne; omega)
        (by intro j hj; exact absurd hj (by omega))
        (by rw [h0]
            show (! ltBytes ((chunks.getD 0 []).getD 0 ([], [])).1 k) = true
            rw [ltBytes_asymm hhead]
            rfl)
      rw [hfg, h0]
    rw [hfind]
    show some ((((chunks.getD 0 []).getD 0 ([], [])).1.length != 0),
        ((chunks.getD 0 []).getD 0 ([], [])).1, ((chunks.getD 0 []).getD 0 ([], [])).2) = _
    rw [key_valid _ hk0]
  · -- a candidate block exists: seek inside block j0 - 1
    rw [if_neg hj00]
    have hmN : j0 - 1 < chunks.length := by omega
    have hcmem : chunks.getD (j0 - 1) [] ∈ chunks := getD_mem2 chunks [] (j0 - 1) hmN
    obtain ⟨hcne, hcs⟩ := hch _ hcmem
    have hfit := chunk_fit _ hcs
    have hclen : 0 < (chunks.getD (j0 - 1) []).length := List.length_pos.mpr hcne
    rw [ht]
    rw [readBlock_builtTable chunks (j0 - 1) hmN hch]
    show ((some (chunkBlock (chunks.getD (j0 - 1) []))).bind _).map _ = _
    rw [optionBind_some]
    have hi0le : firstGe ((chunks.getD (j0 - 1) []).map Prod.fst) k
        ≤ (chunks.getD (j0 - 1) []).length := by
      have h2 := firstGe_le ((chunks.getD (j0 - 1) []).map Prod.fst) k
      rwa [List.length_map] at h2
    have hi0lt : ∀ j, j < firstGe ((chunks.getD (j0 - 1) []).map Prod.fst) k →
        ltBytes (((chunks.getD (j0 - 1) []).map Prod.fst).getD j []) k = true :=
      firstGe_lt _ k
    have hi0ge : firstGe ((chunks.getD (j0 - 1) []).map Prod.fst) k
          < (chunks.getD (j0 - 1) []).length →
        ltBytes (((chunks.getD (j0 - 1) []).map Prod.fst).getD
          (firstGe ((chunks.getD (j0 - 1) []).map Prod.fst) k) []) k = false := by
      intro h
      exact firstGe_ge _ k (by rwa [List.length_map])
    set i0 := firstGe ((chunks.getD (j0 - 1) []).map Prod.fst) k with hi0def
    clear_value i0
    have hoffs : (chunkBlock (chunks.getD (j0 - 1) [])).offsets.length
        = (chunks.getD (j0 - 1) []).length := by
      rw [chunkBlock_offsets, length_chunkOffsets]
    have hsortB : ∀ i j, i < j →
        j < (BlockIterator.new (chunkBlock (chunks.getD (j0 - 1) []))).block.offsets.length →
        ltBytes ((blockKeys (BlockIterator.new
            (chunkBlock (chunks.getD (j0 - 1) []))).block).getD i [])
          ((blockKeys (BlockIterator.new
            (chunkBlock (chunks.getD (j0 - 1) []))).block).getD j []) = true := by
      intro i j hij hj
      have hj2 : j < (chunks.getD (j0 - 1) []).length := by rw [← hoffs]; exact hj
      show ltBytes ((blockKeys (chunkBlock (chunks.getD (j0 - 1) []))).getD i [])
        ((blockKeys (chunkBlock (chunks.getD (j0 - 1) []))).getD j []) = true
      rw [blockKeys_chunkBlock_getD _ i (by omega) hfit,
          blockKeys_chunkBlock_getD _ j hj2 hfit]
      have h3 := ascKeys_pairwise _ (hascC (j0 - 1) hmN) i j hij
        (by rw [List.length_map]; exact hj2)
      rwa [getD_map2 _ Prod.fst ([], []) [] i (by omega),
           getD_map2 _ Prod.fst ([], []) [] j hj2] at h3
    have hi0B : i0 ≤ (BlockIterator.new
        (chunkBlock (chunks.getD (j0 - 1) []))).block.offsets.length := by
      show i0 ≤ (chunkBlock (chunks.getD (j0 - 1) [])).offsets.length
      rw [hoffs]
      exact hi0le
    have hltB : ∀ j, j < i0 →
        ltBytes ((blockKeys (BlockIterator.new
          (chunkBlock (chunks.getD (j0 - 1) []))).block).getD j []) k = true := by
      intro j hj
      show ltBytes ((blockKeys (chunkBlock (chunks.getD (j0 - 1) []))).getD j []) k = true
      rw [blockKeys_chunkBlock_getD _ j (by omega) hfit]
      have h3 := hi0lt j hj
      rwa [getD_map2 _ Prod.fst ([], []) [] j (by omega)] at h3
    have hgeB : i0 < (BlockIterator.new
          (chunkBlock (chunks.getD (j0 - 1) []))).block.offsets.length →
        ltBytes ((blockKeys (BlockIterator.new
          (chunkBlock (chunks.getD (j0 - 1) []))).block).getD i0 []) k = false := by
      intro h
      have h2 : i0 < (chunks.getD (j0 - 1) []).length := by rw [← hoffs]; exact h
      show ltBytes ((blockKeys (chunkBlock (chunks.getD (j0 - 1) []))).getD i0 []) k = false
      rw [blockKeys_chunkBlock_getD _ i0 h2 hfit]
      have h3 := hi0ge h2
      rwa [getD_map2 _ Prod.fst ([], []) [] i0 h2] at h3
    by_cases hio : i0 = (chunks.getD (j0 - 1) []).length
    · -- every key of the candidate block is below the probe
      have hseek : BlockIterator.createAndSeekToKey (chunkBlock (chunks.getD (j0 - 1) [])) k
          = ⟨chunkBlock (chunks.getD (j0 - 1) []), [], [], i0⟩ := by
        unfold BlockIterator.createAndSeekToKey
        rw [seekLoop_spec (BlockIterator.new (chunkBlock (chunks.getD (j0 - 1) []))) k i0
          hsortB hi0B hltB hgeB
          ((chunkBlock (chunks.getD (j0 - 1) [])).offsets.length) 0
          ((chunkBlock (chunks.getD (j0 - 1) [])).offsets.length) (by omega) (by omega)
          hi0B le_rfl]
        rw [if_pos (by
          show i0 = (chunkBlock (chunks.getD (j0 - 1) [])).offsets.length
          rw [hoffs]
          exact hio)]
        rfl
      show Option.map (fun r : SsTableIterator => (r.isValid, r.key, r.value))
        (if (BlockIterator.createAndSeekToKey
            (chunkBlock (chunks.getD (j0 - 1) [])) k).isValid = true
         then _ else _) = _
      rw [hseek]
      rw [if_neg (by show ¬ ((([] : Bytes).length != 0) = true); decide)]
      have hiovals : ∀ p ∈ chunks.getD (j0 - 1) [], ltBytes p.1 k = true := by
        intro p hp
        obtain ⟨jc, hjc, hpc⟩ := List.getElem_of_mem hp
        have h1 := hi0lt jc (by omega)
        rw [getD_map2 _ Prod.fst ([], []) [] jc hjc] at h1
        rw [List.getD_eq_getElem _ _ hjc, hpc] at h1
        exact h1
      have hAall : ∀ p ∈ (chunks.take j0).flatten, ltBytes p.1 k = true := by
        intro p hp
        obtain ⟨jp, hjm, hjN, hpj⟩ := mem_flatten_take chunks j0 p hp
        by_cases hjl : jp = j0 - 1
        · rw [hjl] at hpj
          exact hiovals p hpj
        · have hj1 : jp + 1 < j0 := by omega
          have hj1N : jp + 1 < chunks.length := by omega
          have h1 : ltBytes p.1 (headKeyD (chunks.getD (jp + 1) [])) = true :=
            hcrossC jp (jp + 1) (by omega) hj1N _ (List.mem_map_of_mem Prod.fst hpj)
              _ (headKeyD_mem _ (hch _ (getD_mem2 chunks [] (jp + 1) hj1N)).1)
          have h2 := hj0lt (jp + 1) hj1
          rcases ltBytes_total h2 with heq | hlt2
          · rw [← heq] at h1
            exact h1
          · exact ltBytes_trans h1 hlt2
      by_cases hj0N : chunks.length ≤ j0
      · -- no next block: the iterator stays invalid and no key qualifies
        rw [if_pos (by show (metasOf 0 chunks).length ≤ j0; rw [hmlen]; exact hj0N)]
        have hfind : chunks.flatten.find? (fun p => ! ltBytes p.1 k) = none := by
          apply find?_none_of
          intro p hp
          have h3 : ltBytes p.1 k = true := by
            apply hAall
            rw [show j0 = chunks.length from by omega, List.take_length]
            exact hp
          show (! ltBytes p.1 k) = false
          rw [h3]
          rfl
        rw [hfind]
        rfl
      · -- advance to block j0 and its first entry
        rw [if_neg (by show ¬ ((metasOf 0 chunks).length ≤ j0); rw [hmlen]; exact hj0N)]
        have hj0N2 : j0 < chunks.length := by omega
        rw [readBlock_builtTable chunks j0 hj0N2 hch]
        show ((some (chunkBlock (chunks.getD j0 []))).bind _).map _ = _
        rw [optionBind_some]
        have hc2mem : chunks.getD j0 [] ∈ chunks := getD_mem2 chunks [] j0 hj0N2
        obtain ⟨hc2ne, hc2s⟩ := hch _ hc2mem
        show ((BlockIterator.createAndSeekToFirst (chunkBlock (chunks.getD j0 []))).bind _).map _
          = _
        rw [createAndSeekToFirst_chunkBlock _ hc2ne hc2s, optionBind_some]
        have hk2 : ((chunks.getD j0 []).getD 0 ([], [])).1 ≠ [] :=
          hkeys _ hc2mem _ (getD_mem _ 0 (List.length_pos.mpr hc2ne))
        have hhead2 := hj0ge hj0N2
        rw [headKeyD_getD _ hc2ne] at hhead2
        have hfind : chunks.flatten.find? (fun p => ! ltBytes p.1 k)
            = some ((chunks.getD j0 []).getD 0 ([], [])) := by
          rw [flatten_decomp chunks j0 hj0N2, List.append_assoc]
          rw [find?_append_none _ _ _ (fun p hp => by
            show (! ltBytes p.1 k) = false
            rw [hAall p hp]
            rfl)]
          have h0 : (chunks.getD j0 [] ++ (chunks.drop (j0 + 1)).flatten).getD 0 ([], [])
              = (chunks.getD j0 []).getD 0 ([], []) :=
            getD_append_left2 _ _ 0 _ (List.length_pos.mpr hc2ne)
          have hfg := find?_of_getD (fun p => ! ltBytes p.1 k)
            (chunks.getD j0 [] ++ (chunks.drop (j0 + 1)).flatten) ([], []) 0
            (by rw [List.length_append]; have h3 := List.length_pos.mpr hc2ne; omega)
            (by intro j hj; exact absurd hj (by omega))
            (by rw [h0]
                show (! ltBytes ((chunks.getD j0 []).getD 0 ([], [])).1 k) = true
                rw [ltBytes_asymm hhead2]
                rfl)
          rw [hfg, h0]
        rw [hfind]
        show some ((((chunks.getD j0 []).getD 0 ([], [])).1.length != 0),
            ((chunks.getD j0 []).getD 0 ([], [])).1, ((chunks.getD j0 []).getD 0 ([], [])).2) = _
        rw [key_valid _ hk2]
    · -- the candidate block holds the first key ≥ probe
      have hio2 : i0 < (chunks.getD (j0 - 1) []).length := by omega
      have hseek : BlockIterator.createAndSeekToKey (chunkBlock (chunks.getD (j0 - 1) [])) k
          = ⟨chunkBlock (chunks.getD (j0 - 1) []),
             ((chunks.getD (j0 - 1) []).getD i0 ([], [])).1,
             ((chunks.getD (j0 - 1) []).getD i0 ([], [])).2, i0⟩ := by
        unfold BlockIterator.createAndSeekToKey
        rw [seekLoop_spec (BlockIterator.new (chunkBlock (chunks.getD (j0 - 1) []))) k i0
          hsortB hi0B hltB hgeB
          ((chunkBlock (chunks.getD (j0 - 1) [])).offsets.length) 0
          ((chunkBlock (chunks.getD (j0 - 1) [])).offsets.length) (by omega) (by omega)
          hi0B le_rfl]
        rw [if_neg (by show ¬ i0 = (chunkBlock (chunks.getD (j0 - 1) [])).offsets.length
                       rw [hoffs]
                       exact hio)]
        show (⟨chunkBlock (chunks.getD (j0 - 1) []),
            (blockKeys (chunkBlock (chunks.getD (j0 - 1) []))).getD i0 [],
            (blockVals (chunkBlock (chunks.getD (j0 - 1) []))).getD i0 [], i0⟩
          : BlockIterator) = _
        rw [blockKeys_chunkBlock_getD _ i0 hio2 hfit,
            blockVals_chunkBlock_getD _ i0 hio2 hfit]
      show Option.map (fun r : SsTableIterator => (r.isValid, r.key, r.value))
        (if (BlockIterator.createAndSeekToKey
            (chunkBlock (chunks.getD (j0 - 1) [])) k).isValid = true
         then _ else _) = _
      rw [hseek]
      have hki : ((chunks.getD (j0 - 1) []).getD i0 ([], [])).1 ≠ [] :=
        hkeys _ hcmem _ (getD_mem _ i0 hio2)
      rw [if_pos (by show (((chunks.getD (j0 - 1) []).getD i0 ([], [])).1.length != 0) = true
                     exact key_valid _ hki)]
      have hA : ∀ p ∈ (chunks.take (j0 - 1)).flatten, ltBytes p.1 k = true := by
        intro p hp
        obtain ⟨jp, hjm, hjN, hpj⟩ := mem_flatten_take chunks (j0 - 1) p hp
        have hj1 : jp + 1 < j0 := by omega
        have hj1N : jp + 1 < chunks.length := by omega
        have h1 : ltBytes p.1 (headKeyD (chunks.getD (jp + 1) [])) = true :=
          hcrossC jp (jp + 1) (by omega) hj1N _ (List.mem_map_of_mem Prod.fst hpj)
            _ (headKeyD_mem _ (hch _ (getD_mem2 chunks [] (jp + 1) hj1N)).1)
        have h2 := hj0lt (jp + 1) hj1
        rcases ltBytes_total h2 with heq | hlt2
        · rw [← heq] at h1
          exact h1
        · exact ltBytes_trans h1 hlt2
      have hfind : chunks.flatten.find? (fun p => ! ltBytes p.1 k)
          = some ((chunks.getD (j0 - 1) []).getD i0 ([], [])) := by
        rw [flatten_decomp chunks (j0 - 1) hmN, List.append_assoc]
        rw [find?_append_none _ _ _ (fun p hp => by
          show (! ltBytes p.1 k) = false
          rw [hA p hp]
          rfl)]
        have hgj : ∀ j, j ≤ i0 →
            (chunks.getD (j0 - 1) [] ++ (chunks.drop (j0 - 1 + 1)).flatten).getD j ([], [])
              = (chunks.getD (j0 - 1) []).getD j ([], []) := by
          intro j hj
          exact getD_append_left2 _ _ j _ (by omega)
        have hfg := find?_of_getD (fun p => ! ltBytes p.1 k)
          (chunks.getD (j0 - 1) [] ++ (chunks.drop (j0 - 1 + 1)).flatten) ([], []) i0
          (by rw [List.length_append]; omega)
          (by intro j hj
              rw [hgj j (by omega)]
              show (! ltBytes ((chunks.getD (j0 - 1) []).getD j ([], [])).1 k) = false
              have h3 := hi0lt j hj
              rw [getD_map2 _ Prod.fst ([], []) [] j (by omega)] at h3
              rw [h3]
              rfl)
          (by rw [hgj i0 le_rfl]
              show (! ltBytes ((chunks.getD (j0 - 1) []).getD i0 ([], [])).1 k) = true
              have h3 := hi0ge hio2
              rw [getD_map2 _ Prod.fst ([], []) [] i0 hio2] at h3
              rw [h3]
              rfl)
        rw [hfg, hgj i0 le_rfl]
      rw [hfind]
      show some ((((chunks.getD (j0 - 1) []).getD i0 ([], [])).1.length != 0),
          ((chunks.getD (j0 - 1) []).getD i0 ([], [])).1,
          ((chunks.getD (j0 - 1) []).getD i0 ([], [])).2) = _
      rw [key_valid _ hki]

end MiniLsm

namespace MiniLsm

/-- C3 counterexample: the table built from the single pair whose key is the
empty byte string.  A linear scan over the stored pairs finds an entry whose
key is `≥ []` (the pair itself), yet `seek_to_key([])` leaves the iterator
invalid, because the block-level seek caches the empty key and `is_valid`
treats an empty key as end-of-iterator. -/
theorem c3_seek_to_key_cex :
    (buildFromPairs 16 [([], [118])]).bind (fun t =>
        (SsTableIterator.seekToKey ⟨t, 0, BlockIterator.new ⟨[], []⟩⟩ []).map
          (fun r => r.isValid))
      = some false ∧
    [([], [118])].find? (fun p => ! ltBytes p.1 []) = some ([], [118]) := by
  have hfold : List.foldlM (fun (st : SsTableBuilder) (q : Bytes × Bytes) => st.add q.1 q.2)
      (builderState 16 [] []) [([], [118])] = some (builderState 16 [] [([], [118])]) := by
    decide
  have hbuild : buildFromPairs 16 [([], [118])] = some (builtTable [[([], [118])]]) := by
    unfold buildFromPairs
    rw [show SsTableBuilder.new 16 = some (builderState 16 [] []) from by decide]
    show (some _).bind _ = _
    rw [optionBind_some]
    show (List.foldlM (fun (st : SsTableBuilder) (q : Bytes × Bytes) => st.add q.1 q.2)
        (builderState 16 [] []) [([], [118])]).bind _ = _
    rw [hfold]
    show (some _).bind _ = _
    rw [optionBind_some]
    exact sstBuild_builderState 16 [] [([], [118])] (by omega)
      (fun c h => absurd h (List.not_mem_nil c)) (by decide) (by decide) (by simp)
  refine ⟨?_, by decide⟩
  rw [hbuild]
  show (some _).bind _ = _
  rw [optionBind_some]
  show (SsTableIterator.seekToKey ⟨builtTable [[([], [118])]], 0,
      BlockIterator.new ⟨[], []⟩⟩ []).map (fun r => r.isValid) = some false
  have hml : SsTableIterator.metaSeekLoop (metasOf 0 [[([], [118])]]) [] 0
      (metasOf 0 [[([], [118])]]).length = 1 :=
    metaSeekLoop_spec _ [] 1
      (by intro i j hij hj
          rw [show (metasOf 0 [[([], [118])]]).length = 1 from by decide] at hj
          exact absurd hij (by omega))
      (by decide)
      (by intro j hj
          rw [show j = 0 from by omega]
          decide)
      (by intro h
          rw [show (metasOf 0 [[([], [118])]]).length = 1 from by decide] at h
          exact absurd h (by omega))
      (metasOf 0 [[([], [118])]]).length 0 (metasOf 0 [[([], [118])]]).length
      (by omega) (by omega) (by decide) (by omega)
  rw [seekToKey_low ⟨builtTable [[([], [118])]], 0, BlockIterator.new ⟨[], []⟩⟩ [] 1 hml]
  rw [if_neg (by omega : ¬ (1 : Nat) = 0)]
  rw [show (1 : Nat) - 1 = 0 from rfl]
  rw [readBlock_builtTable [[([], [118])]] 0 (by decide) (by decide)]
  show Option.map (fun r : SsTableIterator => r.isValid)
    ((some (chunkBlock ([[([], [118])]].getD 0 []))).bind _) = _
  rw [optionBind_some]
  have hcsk : BlockIterator.createAndSeekToKey (chunkBlock ([[([], [118])]].getD 0 [])) []
      = ⟨chunkBlock ([[([], [118])]].getD 0 []), [], [118], 0⟩ := by
    unfold BlockIterator.createAndSeekToKey
    rw [seekLoop_spec (BlockIterator.new (chunkBlock ([[([], [118])]].getD 0 []))) [] 0
      (by intro i j hij hj
          rw [show (BlockIterator.new
            (chunkBlock ([[([], [118])]].getD 0 []))).block.offsets.length = 1
            from by decide] at hj
          exact absurd hij (by omega))
      (by omega)
      (by intro j hj
          exact absurd hj (by omega))
      (by intro h
          decide)
      ((chunkBlock ([[([], [118])]].getD 0 [])).offsets.length) 0
      ((chunkBlock ([[([], [118])]].getD 0 [])).offsets.length)
      (by omega) (by omega) (by omega) le_rfl]
    rw [if_neg (by decide)]
    decide
  show Option.map (fun r : SsTableIterator => r.isValid)
    (if (BlockIterator.createAndSeekToKey
        (chunkBlock ([[([], [118])]].getD 0 [])) []).isValid = true
     then _ else _) = _
  rw [hcsk]
  rw [if_neg (by decide)]
  rw [if_pos (by decide)]
  rfl

/-- C3 amended: on a table built from a nonempty sequence of at most a million
strictly ascending pairs with nonempty keys, each fitting an empty block and
with a block size of at most 4193, `seek_to_key(k)` agrees with the linear
scan that takes the first stored pair whose key is `≥ k`: when such a pair
exists the iterator is valid and holds exactly that pair, and otherwise the
iterator is invalid. -/
theorem c3_seek_to_key (bs : Nat) (pairs : List (Bytes × Bytes)) (k : Bytes)
    (it0 : SsTableIterator) (t : SsTable)
    (hbs : bs ≤ 4193) (hne : pairs ≠ []) (hcount : pairs.length ≤ 1000000)
    (hkeys : ∀ p ∈ pairs, p.1 ≠ [])
    (hfit : ∀ p ∈ pairs, 2 + p.1.length + 2 + p.2.length + 2 ≤ bs)
    (hsorted : ascending pairs = true)
    (hb : buildFromPairs bs pairs = some t) (ht : it0.table = t) :
    (it0.seekToKey k).map (fun r => (r.isValid, r.key, r.value))
      = some (match pairs.find? (fun p => ! ltBytes p.1 k) with
              | some p => (true, p.1, p.2)
              | none => (false, ([] : Bytes), ([] : Bytes))) := by
  obtain ⟨chunks, hflat, hcne, hch, hclen, hbuild⟩ :=
    buildFromPairs_chunks bs pairs hbs hne hcount
      (fun p hp => by have h1 := hfit p hp; unfold entrySize; omega)
      hkeys
  rw [hb] at hbuild
  have ht2 : t = builtTable chunks := by injection hbuild
  rw [← hflat]
  apply seekToKey_builtTable chunks k hcne
  · intro c hm
    obtain ⟨h1, h2⟩ := hch c hm
    exact ⟨h1, by omega⟩
  · intro c hm p hp
    apply hkeys
    rw [← hflat]
    exact List.mem_flatten.mpr ⟨c, hm, hp⟩
  · rw [hflat]
    exact ascending_ascKeys pairs hsorted
  · rw [ht, ht2]

theorem c3_seek_to_key_witness :
    ((⟨(buildFromPairs 16 [([97], [49]), ([99], [51])]).getD ⟨[], [], 0⟩, 0,
        BlockIterator.new ⟨[], []⟩⟩ : SsTableIterator).seekToKey [98]).map
      (fun r => (r.isValid, r.key, r.value)) = some (true, [99], [51]) := by
  have hb : buildFromPairs 16 [([97], [49]), ([99], [51])]
      = some ((buildFromPairs 16 [([97], [49]), ([99], [51])]).getD ⟨[], [], 0⟩) := by
    have hfold : List.foldlM (fun (st : SsTableBuilder) (q : Bytes × Bytes) => st.add q.1 q.2)
        (builderState 16 [] []) [([97], [49]), ([99], [51])]
        = some (builderState 16 [] [([97], [49]), ([99], [51])]) := by decide
    have h1 : buildFromPairs 16 [([97], [49]), ([99], [51])]
        = some (builtTable [[([97], [49]), ([99], [51])]]) := by
      unfold buildFromPairs
      rw [show SsTableBuilder.new 16 = some (builderState 16 [] []) from by decide]
      show (some _).bind _ = _
      rw [optionBind_some]
      show (List.foldlM (fun (st : SsTableBuilder) (q : Bytes × Bytes) => st.add q.1 q.2)
          (builderState 16 [] []) [([97], [49]), ([99], [51])]).bind _ = _
      rw [hfold]
      show (some _).bind _ = _
      rw [optionBind_some]
      exact sstBuild_builderState 16 [] [([97], [49]), ([99], [51])] (by omega)
        (fun c h => absurd h (List.not_mem_nil c)) (by decide) (by decide) (by simp)
    rw [h1]
    rfl
  have h := c3_seek_to_key 16 [([97], [49]), ([99], [51])] [98]
    ⟨(buildFromPairs 16 [([97], [49]), ([99], [51])]).getD ⟨[], [], 0⟩, 0,
      BlockIterator.new ⟨[], []⟩⟩ _ (by omega) (by decide) (by decide) (by decide)
    (by decide) (by decide) hb rfl
  rw [h]
  decide

end MiniLsm
